import Mathlib

/-!
Shallow embedding of the rust-bittorrent-client repository in Lean 4.

Bytes are modelled as `Nat` values (< 256 where it matters), byte buffers as
`List Nat`.  Machine integers (`u32`, `usize`) are modelled as `Nat`; the code
under scrutiny never exercises wrap-around on them on the inputs the claims
quantify over, and where a cast or overflow matters it is made explicit.
Fallible Rust functions returning `Result`/`io::Result` are modelled with
`Except`-style sum types; Rust panics (out-of-bounds slicing, `unwrap` on
`None`) are modelled by a dedicated `panic` constructor of the result type.
-/

set_option maxRecDepth 8000

namespace BtClient

/-- Truncation to 32 bits, the `u32` wrap-around. -/
def w32 (n : Nat) : Nat := n % 4294967296

/-- Left rotation of a 32-bit word by `s` places. -/
def rotl32 (s n : Nat) : Nat := w32 (n <<< s) ||| (n >>> (32 - s))

/-- Big-endian byte encoding of `n` on `k` bytes (as in `u32::to_be_bytes`). -/
def beBytes : Nat → Nat → List Nat
  | 0, _ => []
  | k + 1, n => beBytes k (n / 256) ++ [n % 256]

/-- Big-endian decoding of a byte list (as in `u32::from_be_bytes`). -/
def fromBeBytes (l : List Nat) : Nat := l.foldl (fun acc b => acc * 256 + b) 0

/-- Fuel-driven worker for `chunksOf`; structural recursion on the fuel keeps
it kernel-reducible.  `l.length` fuel always suffices. -/
def chunksOfGo (k : Nat) : Nat → List α → List (List α)
  | 0, _ => []
  | _, [] => []
  | fuel + 1, l => l.take k :: chunksOfGo k fuel (l.drop (max k 1))

/-- Rust's `slice::chunks(k)`: split into chunks of `k`, last possibly
shorter.  (`chunks(0)` panics in Rust; the `max k 1` guard is only there to
make the definition total, every use has `k ≥ 1`.) -/
def chunksOf (k : Nat) (l : List α) : List (List α) := chunksOfGo k l.length l

/-- Fuel-driven worker for `chunksExact`. -/
def chunksExactGo (k : Nat) : Nat → List α → List (List α)
  | 0, _ => []
  | fuel + 1, l =>
      if k = 0 ∨ l.length < k then []
      else l.take k :: chunksExactGo k fuel (l.drop k)

/-- Rust's `slice::chunks_exact(k)`: only the full chunks of `k` elements,
up to `k - 1` trailing elements are dropped. -/
def chunksExact (k : Nat) (l : List α) : List (List α) :=
  chunksExactGo k l.length l

/-! ### SHA-1 (the `sha1` crate behind `Sha1::calculate`)

The repository delegates hashing to the external `sha1` crate; the function
below is the SHA-1 algorithm itself (FIPS 180-4), operating on byte lists,
all word arithmetic carried out modulo `2^32`. -/

/-- Group bytes into big-endian 32-bit words (incomplete trailing group
dropped; blocks handed to it always have a multiple of 4 bytes). -/
def bytesToWords : List Nat → List Nat
  | b0 :: b1 :: b2 :: b3 :: rest =>
      (((b0 * 256 + b1) * 256 + b2) * 256 + b3) :: bytesToWords rest
  | _ => []

/-- SHA-1 round constants. -/
def sha1K (i : Nat) : Nat :=
  if i < 20 then 1518500249
  else if i < 40 then 1859775393
  else if i < 60 then 2400959708
  else 3395469782

/-- SHA-1 round functions (bitwise `not b` is `b ^^^ 0xFFFFFFFF` on 32-bit
words). -/
def sha1F (i b c d : Nat) : Nat :=
  if i < 20 then (b &&& c) ||| ((b ^^^ 4294967295) &&& d)
  else if i < 40 then b ^^^ c ^^^ d
  else if i < 60 then (b &&& c) ||| (b &&& d) ||| (c &&& d)
  else b ^^^ c ^^^ d

/-- One SHA-1 round: update the five-word state with schedule word `w`. -/
def sha1Step (w : Nat) (i : Nat) : Nat × Nat × Nat × Nat × Nat → Nat × Nat × Nat × Nat × Nat
  | (a, b, c, d, e) =>
      (w32 (rotl32 5 a + sha1F i b c d + e + sha1K i + w), a, rotl32 30 b, c, d)

/-- Run the 80 rounds of one block.  `recent` holds the schedule words already
produced, newest first, so `w[i-3]` is `recent[2]`, …, `w[i-16]` is
`recent[15]`. -/
def sha1Go (ws16 : List Nat) : Nat → Nat → List Nat →
    Nat × Nat × Nat × Nat × Nat → Nat × Nat × Nat × Nat × Nat
  | 0, _, _, st => st
  | fuel + 1, i, recent, st =>
      let w :=
        if i < 16 then ws16.getD i 0
        else rotl32 1 ((recent.getD 2 0) ^^^ (recent.getD 7 0) ^^^
          (recent.getD 13 0) ^^^ (recent.getD 15 0))
      sha1Go ws16 fuel (i + 1) (w :: recent) (sha1Step w i st)

/-- Compress one 64-byte block into the running state. -/
def sha1ProcessBlock (st : Nat × Nat × Nat × Nat × Nat) (block : List Nat) :
    Nat × Nat × Nat × Nat × Nat :=
  let (h0, h1, h2, h3, h4) := st
  let (a, b, c, d, e) := sha1Go (bytesToWords block) 80 0 [] st
  (w32 (h0 + a), w32 (h1 + b), w32 (h2 + c), w32 (h3 + d), w32 (h4 + e))

/-- SHA-1 padding: `0x80`, zeros to 56 mod 64, then the bit length on 8
big-endian bytes. -/
def sha1Pad (msg : List Nat) : List Nat :=
  msg ++ 128 :: List.replicate ((119 - msg.length % 64) % 64) 0 ++
    beBytes 8 (8 * msg.length)

/-- The 20-byte SHA-1 digest of a byte list — the model of
`Sha1::calculate`. -/
def sha1Bytes (msg : List Nat) : List Nat :=
  let (h0, h1, h2, h3, h4) :=
    (chunksOf 64 (sha1Pad msg)).foldl sha1ProcessBlock
      (1732584193, 4023233417, 2562383102, 271733878, 3285377520)
  beBytes 4 h0 ++ beBytes 4 h1 ++ beBytes 4 h2 ++ beBytes 4 h3 ++ beBytes 4 h4

/-- `Sha1::verify(data)`: stored digest equals the digest of `data`. -/
def sha1Verify (stored : List Nat) (data : List Nat) : Bool :=
  stored == sha1Bytes data

/-! ### `request_download.rs`: bitfield validation -/

/-- The error variants of `downloader::request_download::Error` relevant to
bitfield validation. -/
inductive RdError where
  | bitfieldSizeMismatch (expected received : Nat)
  | incompleteFile
deriving DecidableEq

/-- `std::result::Result<(), Error>` for the bitfield checks. -/
inductive RdResult where
  | ok
  | err (e : RdError)
deriving DecidableEq

/-- Rust's `usize::div_ceil`. -/
def divCeil (a b : Nat) : Nat := (a + b - 1) / b

/-- `check_bitfield_size` from `request_download.rs`. -/
def check_bitfield_size (bitfield_size piece_count : Nat) : RdResult :=
  let expected_bitfield_size := divCeil piece_count 8
  if bitfield_size ≠ expected_bitfield_size then
    .err (.bitfieldSizeMismatch expected_bitfield_size bitfield_size)
  else .ok

/-- The mask `(128u8 as i8 >> (pieces_in_last_byte - 1)) as u8`: an
arithmetic right shift of `-128` (modelled by `Int.fdiv`, which rounds toward
minus infinity) reinterpreted as `u8` (`emod 256`). -/
def lastByteMask (piecesInLastByte : Nat) : Nat :=
  (Int.fdiv (-128) (2 ^ (piecesInLastByte - 1))).emod 256 |>.toNat

/-- The `pieces_in_last_byte` computation of `check_bitfield_completeness`:
`piece_count % 8`, or `8` when divisible. -/
def piecesInLastByte (piece_count : Nat) : Nat :=
  if piece_count % 8 = 0 then 8 else piece_count % 8

/-- `check_bitfield_completeness` from `request_download.rs`.  The indexing
`bitfield[..len-1]` / `bitfield[len-1]` panics on an empty bitfield in Rust;
`dropLast` / `getLastD` are total, and every use below reaches this function
only with a non-empty bitfield (`piece_count ≥ 1` and the size check
passed). -/
def check_bitfield_completeness (bitfield : List Nat) (piece_count : Nat) :
    RdResult :=
  if bitfield.dropLast.any (fun byte => byte ≠ 255) then .err .incompleteFile
  else if bitfield.getLastD 0 &&& lastByteMask (piecesInLastByte piece_count) ≠
      lastByteMask (piecesInLastByte piece_count) then .err .incompleteFile
  else .ok

/-- The bitfield validation performed by `request_complete_file`:
`check_bitfield_size(...).and_then(|_| check_bitfield_completeness(...))`. -/
def checkBitfield (bitfield : List Nat) (piece_count : Nat) : RdResult :=
  match check_bitfield_size bitfield.length piece_count with
  | .err e => .err e
  | .ok => check_bitfield_completeness bitfield piece_count

/-! ### `peer_comm/peer_message.rs`: the wire codec -/

/-- `PeerMessage` from `peer_comm/peer_message.rs`. -/
inductive PeerMessage where
  | bitfield (b : List Nat)
  | interested
  | unchoke
  | request (piece_index offset length : Nat)
  | piece (piece_index offset : Nat) (block : List Nat)
  | unknown (id : Nat) (payload : List Nat)
deriving DecidableEq

/-- `PeerMessage::send`, modelled as the bytes written to `dst`; `none` is
the `io::ErrorKind::InvalidData` "does not support sending" arm for the
variants this client never sends. -/
def PeerMessage.sendBytes : PeerMessage → Option (List Nat)
  | .interested => some [0, 0, 0, 1, 2]
  | .request piece_index offset length =>
      some ([0, 0, 0, 13, 6] ++ beBytes 4 piece_index ++ beBytes 4 offset ++
        beBytes 4 length)
  | _ => none

/-- Result of `PeerMessage::receive` on a byte stream: the decoded message
and the unconsumed rest, an `UnexpectedEof` from `read_exact`, or a Rust
panic (out-of-bounds slicing). -/
inductive RecvResult where
  | ok (msg : PeerMessage) (rest : List Nat)
  | eof
  | panic
deriving DecidableEq

/-- `read_message_length`: read 4-byte big-endian words, skipping zero
(keep-alive) lengths.  Fuel bounds the keep-alive loop; `src.length + 1` is
always enough, and on exhaustion the stream has ended anyway
(`read_exact` would report `UnexpectedEof`). -/
def readLenLoop : Nat → List Nat → Option (Nat × List Nat)
  | 0, _ => none
  | fuel + 1, src =>
      if src.length < 4 then none
      else if fromBeBytes (src.take 4) = 0 then readLenLoop fuel (src.drop 4)
      else some (fromBeBytes (src.take 4), src.drop 4)

/-- `read_message_payload`: one id byte, then `msg_len - 1` payload bytes;
`none` is `read_exact`'s `UnexpectedEof`. -/
def readMessagePayload (src : List Nat) (msgLen : Nat) :
    Option (Nat × List Nat × List Nat) :=
  if src.length < 1 then none
  else if (src.drop 1).length < msgLen - 1 then none
  else some (src.headD 0, (src.drop 1).take (msgLen - 1),
    (src.drop 1).drop (msgLen - 1))

/-- `PeerMessage::receive`.  The `id = 7` (Piece) arm slices
`payload[0..4]` and `payload[4..8]`, which panics when the payload is
shorter than 8 bytes. -/
def PeerMessage.receive (src : List Nat) : RecvResult :=
  match readLenLoop (src.length + 1) src with
  | none => .eof
  | some (msgLen, rest) =>
      match readMessagePayload rest msgLen with
      | none => .eof
      | some (id, payload, rest') =>
          if id = 1 then .ok .unchoke rest'
          else if id = 5 then .ok (.bitfield payload) rest'
          else if id = 7 then
            if payload.length < 4 then .panic
            else if payload.length < 8 then .panic
            else .ok (.piece (fromBeBytes (payload.take 4))
                (fromBeBytes ((payload.drop 4).take 4)) (payload.drop 8)) rest'
          else .ok (.unknown id payload) rest'

/-- A wire frame for message id `id` with the given payload: big-endian
length (`payload.length + 1`), the id byte, the payload. -/
def msgFrame (id : Nat) (payload : List Nat) : List Nat :=
  beBytes 4 (payload.length + 1) ++ id :: payload

/-! ### `file_downloader/file_info.rs` -/

/-- `FileInfo`: the file length and the nominal piece length. -/
structure FileInfo where
  file_length : Nat
  piece_length : Nat
deriving DecidableEq

/-- `FileInfo::piece_bounds`: `[piece_start, piece_end)` of a piece, the end
clamped to the file length. -/
def FileInfo.piece_bounds (fi : FileInfo) (piece_index : Nat) : Nat × Nat :=
  let piece_start := piece_index * fi.piece_length
  let piece_end := (piece_index + 1) * fi.piece_length
  (piece_start, if fi.file_length < piece_end then fi.file_length else piece_end)

/-- `FileInfo::piece_length(piece_index)` (the method; the field of the same
name is `piece_length` above): the effective length of one piece. -/
def FileInfo.pieceLength (fi : FileInfo) (piece_index : Nat) : Nat :=
  (fi.piece_bounds piece_index).2 - (fi.piece_bounds piece_index).1

/-- `FileInfo::piece_count`: `file_length.div_ceil(piece_length)`. -/
def FileInfo.piece_count (fi : FileInfo) : Nat :=
  divCeil fi.file_length fi.piece_length

/-! ### `file_downloader.rs` data types and errors -/

/-- `Block` from `file_downloader.rs`. -/
structure Block where
  piece_index : Nat
  offset : Nat
  data : List Nat
deriving DecidableEq

/-- `Piece` from `file_downloader.rs` / `piece_composer.rs`. -/
structure Piece where
  index : Nat
  data : List Nat
deriving DecidableEq

/-- The `io::Error` values produced in the download pipeline, modelled
structurally: the two `InvalidData` errors of the composer, the hash
mismatch of `verify_piece_hash`, the test channel's "No block requested"
error, and an out-of-fuel artifact of the embedding (never reached with
enough fuel). -/
inductive DlError where
  | unexpectedPieceIndex (expected actual : Nat)
  | unexpectedBlockOffset (expected actual : Nat)
  | pieceHashMismatch
  | noBlockRequested
  | outOfFuel
deriving DecidableEq

/-! ### `file_downloader/piece_composer.rs` -/

/-- The `PieceComposer` state. -/
structure PieceComposer where
  piece_index : Option Nat
  buffer : List Nat
  file_info : FileInfo
deriving DecidableEq

/-- `PieceComposer::new`. -/
def PieceComposer.new (fi : FileInfo) : PieceComposer := ⟨none, [], fi⟩

/-- `PieceComposer::append_block`, returning the optional finished piece and
the successor state.  Mirrors the source: fill in `piece_index` on the first
block, `verify_piece_index`, `verify_block_offset` (expected is
`buffer.len()`), extend the buffer, and emit the piece when the buffer has
reached `current_piece_length`. -/
def PieceComposer.append_block (c : PieceComposer) (block : Block) :
    Except DlError (Option Piece × PieceComposer) :=
  let pieceIndex :=
    match c.piece_index with
    | none => block.piece_index
    | some i => i
  if pieceIndex ≠ block.piece_index then
    .error (.unexpectedPieceIndex pieceIndex block.piece_index)
  else if c.buffer.length ≠ block.offset then
    .error (.unexpectedBlockOffset c.buffer.length block.offset)
  else
    let buffer := c.buffer ++ block.data
    if c.file_info.pieceLength pieceIndex ≤ buffer.length then
      .ok (some ⟨pieceIndex, buffer⟩,
        { c with buffer := [], piece_index := none })
    else
      .ok (none, { c with buffer := buffer, piece_index := some pieceIndex })

/-- Fold `append_block` over a list of blocks, collecting each call's
output. -/
def PieceComposer.appendBlocks (c : PieceComposer) :
    List Block → Except DlError (List (Option Piece) × PieceComposer)
  | [] => .ok ([], c)
  | b :: bs =>
      match c.append_block b with
      | .error e => .error e
      | .ok (out, c') =>
          match c'.appendBlocks bs with
          | .error e => .error e
          | .ok (outs, c'') => .ok (out :: outs, c'')

/-- The claim's block sequences: data chunks of one piece delivered in
ascending offset order with no gaps, offsets being the partial sums of the
chunk lengths. -/
def mkBlocks (p : Nat) : Nat → List (List Nat) → List Block
  | _, [] => []
  | start, c :: cs => ⟨p, start, c⟩ :: mkBlocks p (start + c.length) cs

/-! ### `file_downloader/request_emitter.rs` -/

/-- The `RequestEmitter` state. -/
structure RequestEmitter where
  block_length : Nat
  piece_index : Nat
  next_block_index : Nat
  file_info : FileInfo
deriving DecidableEq

/-- `RequestEmitter::new`. -/
def RequestEmitter.new (block_length : Nat) (fi : FileInfo) : RequestEmitter :=
  ⟨block_length, 0, 0, fi⟩

/-- `RequestEmitter::request_next_block`, with the channel modelled by the
optionally emitted `(piece_index, offset, length)` triple.  When the emitter
is exhausted nothing is sent and the state is unchanged (`Ok(())`). -/
def RequestEmitter.request_next_block (e : RequestEmitter) :
    Option (Nat × Nat × Nat) × RequestEmitter :=
  if e.file_info.piece_count ≤ e.piece_index then (none, e)
  else
    let piece_length := e.file_info.pieceLength e.piece_index
    let block_count := divCeil piece_length e.block_length
    let block_offset := e.next_block_index * e.block_length
    let block_length := min e.block_length (piece_length - block_offset)
    let e' :=
      if block_count ≤ e.next_block_index + 1 then
        { e with next_block_index := 0, piece_index := e.piece_index + 1 }
      else { e with next_block_index := e.next_block_index + 1 }
    (some (e.piece_index, block_offset, block_length), e')

/-- `n` successive calls of `request_next_block`, collecting every request
sent to the channel. -/
def emitRun (e : RequestEmitter) : Nat → List (Nat × Nat × Nat)
  | 0 => []
  | n + 1 =>
      match e.request_next_block with
      | (none, e') => emitRun e' n
      | (some r, e') => r :: emitRun e' n

/-- The claim's enumeration of the block requests of one piece:
`offset = k * block_length`, `length = min(block_length, L - offset)`, for
`k < ceil(L / block_length)` where `L` is the effective piece length. -/
def pieceReqs (fi : FileInfo) (bl p : Nat) : List (Nat × Nat × Nat) :=
  (List.range (divCeil (fi.pieceLength p) bl)).map
    (fun k => (p, k * bl, min bl (fi.pieceLength p - k * bl)))

/-- All requests from piece `p` on, in order. -/
def specRequestsFrom (fi : FileInfo) (bl p : Nat) : List (Nat × Nat × Nat) :=
  (List.range' p (fi.piece_count - p)).flatMap (pieceReqs fi bl)

/-- The claim's full request sequence: each piece's blocks in order, piece
after piece. -/
def specRequests (fi : FileInfo) (bl : Nat) : List (Nat × Nat × Nat) :=
  (List.range fi.piece_count).flatMap (pieceReqs fi bl)

/-! ### `bencoding/decoder.rs`: the bencoding decoder

The decoder state is the cursor `pos` into the fixed buffer `data`
(`current_pos` / `raw_data` in the source; `rest_data` is `data.drop pos`).
The mutual recursion of `decode` / `decode_dict` / `decode_list` is driven
by a fuel argument; `data.length + 1` fuel always suffices, and the fuel-out
value is the same `panic` constructor (it is unreachable from the public
entry points with that fuel).  `Dict` values carry their stored SHA-1 and
their entries as an insertion-ordered association list mirroring
`HashMap::insert` (last write wins). -/

/-- `BencValue` (with `Dict` flattened into the `dict` constructor). -/
inductive BencValue where
  | int (value : Int)
  | byteString (value : List Nat)
  | dict (sha1 : List Nat) (values : List (List Nat × BencValue))
  | list (values : List BencValue)

/-- `HashMap::insert`: replace the value under an existing key, otherwise
append. -/
def insertKV (values : List (List Nat × BencValue)) (key : List Nat)
    (v : BencValue) : List (List Nat × BencValue) :=
  match values with
  | [] => [(key, v)]
  | (k', v') :: rest =>
      if k' = key then (key, v) :: rest else (k', v') :: insertKV rest key v

/-- `DecodeError` as produced by `decoder.rs` (the lossily-converted
`String` payloads of the source are kept as the raw bytes). -/
inductive DecodeError where
  | stringDelimiterNotFound
  | invalidStringLengthValue (raw : List Nat)
  | stringLengthValueTooBig (expected actual : Nat)
  | endingDelimiterNotFound
  | invalidIntValue (raw : List Nat)
deriving DecidableEq

/-- Decoder outcome: a value plus the new cursor, a `DecodeError`, or a Rust
panic (out-of-bounds indexing; also fuel exhaustion in this embedding). -/
inductive DResult (α : Type) where
  | ok (value : α) (pos : Nat)
  | err (e : DecodeError)
  | panic
deriving DecidableEq

/-- `Iterator::position` on a byte list. -/
def position (p : Nat → Bool) : List Nat → Option Nat
  | [] => none
  | b :: rest => if p b then some 0 else (position p rest).map (· + 1)

/-- Digit-string value; `none` when empty or containing a non-digit
(`str::parse` on the lossy UTF-8 conversion fails in exactly these cases,
any non-ASCII byte turning into a non-digit replacement character). -/
def parseDigits (l : List Nat) : Option Nat :=
  if l = [] ∨ l.any (fun b => ¬ (48 ≤ b ∧ b ≤ 57)) then none
  else some (l.foldl (fun acc b => acc * 10 + (b - 48)) 0)

/-- `str::parse::<i64>`: optional sign, digits, `i64` range. -/
def parse_i64 (l : List Nat) : Option Int :=
  match l with
  | 45 :: rest =>
      (parseDigits rest).bind fun n =>
        if n ≤ 2 ^ 63 then some (-(n : Int)) else none
  | 43 :: rest =>
      (parseDigits rest).bind fun n =>
        if n < 2 ^ 63 then some (n : Int) else none
  | _ =>
      (parseDigits l).bind fun n =>
        if n < 2 ^ 63 then some (n : Int) else none

/-- `str::parse::<usize>`: optional `+`, digits, 64-bit range. -/
def parse_usize (l : List Nat) : Option Nat :=
  match l with
  | 43 :: rest =>
      (parseDigits rest).bind fun n => if n < 2 ^ 64 then some n else none
  | _ =>
      (parseDigits l).bind fun n => if n < 2 ^ 64 then some n else none

/-- `rest_data[0]`, the decoder's first-byte inspection. -/
def headByte (data : List Nat) (pos : Nat) : Option Nat :=
  (data.drop pos).head?

/-- `Decoder::decode_string` (with `decode_string_length` inlined): find the
`:` delimiter, parse the length, check it against the remaining buffer. -/
def decode_string (data : List Nat) (pos : Nat) : DResult (List Nat) :=
  match position (fun b => b = 58) (data.drop pos) with
  | none => .err .stringDelimiterNotFound
  | some di =>
      let lenBytes := (data.drop pos).take di
      match parse_usize lenBytes with
      | none => .err (.invalidStringLengthValue lenBytes)
      | some slen =>
          let rest := data.drop (pos + di + 1)
          if rest.length < slen then
            .err (.stringLengthValueTooBig slen rest.length)
          else .ok (rest.take slen) (pos + di + 1 + slen)

/-- `Decoder::decode_int`: skip `i`, find `e`, parse the digits between. -/
def decode_int (data : List Nat) (pos : Nat) : DResult Int :=
  match position (fun b => b = 101) (data.drop (pos + 1)) with
  | none => .err .endingDelimiterNotFound
  | some ei =>
      let intBytes := (data.drop (pos + 1)).take ei
      match parse_i64 intBytes with
      | none => .err (.invalidIntValue intBytes)
      | some v => .ok v (pos + 1 + ei + 1)

mutual

/-- `Decoder::decode`: dispatch on `rest_data[0]` — a panic when the rest is
empty — to `i`/`d`/`l`/byte-string decoding. -/
def decode (data : List Nat) : Nat → Nat → DResult BencValue
  | 0, _ => .panic
  | fuel + 1, pos =>
      match headByte data pos with
      | none => .panic
      | some b =>
          if b = 105 then
            match decode_int data pos with
            | .ok v p => .ok (.int v) p
            | .err e => .err e
            | .panic => .panic
          else if b = 100 then
            match decode_dict data fuel pos with
            | .ok (sha, values) p => .ok (.dict sha values) p
            | .err e => .err e
            | .panic => .panic
          else if b = 108 then
            match decode_list data fuel pos with
            | .ok vs p => .ok (.list vs) p
            | .err e => .err e
            | .panic => .panic
          else
            match decode_string data pos with
            | .ok s p => .ok (.byteString s) p
            | .err e => .err e
            | .panic => .panic
termination_by structural fuel _ => fuel

/-- `Decoder::decode_dict`: record `dict_start`, skip `d`, run the entry
loop. -/
def decode_dict (data : List Nat) :
    Nat → Nat → DResult (List Nat × List (List Nat × BencValue))
  | 0, _ => .panic
  | fuel + 1, pos => decodeDictEntries data fuel (pos + 1) pos []
termination_by structural fuel _ => fuel

/-- The `while !at_trailing_delimiter` loop of `decode_dict`: on `e`, step
past it and store `SHA1(raw_data[dict_start..current_pos])`; otherwise
decode a key string and a value and insert them. -/
def decodeDictEntries (data : List Nat) :
    Nat → Nat → Nat → List (List Nat × BencValue) →
    DResult (List Nat × List (List Nat × BencValue))
  | 0, _, _, _ => .panic
  | fuel + 1, pos, dictStart, values =>
      match headByte data pos with
      | none => .err .endingDelimiterNotFound
      | some b =>
          if b = 101 then
            .ok (sha1Bytes ((data.drop dictStart).take (pos + 1 - dictStart)),
              values) (pos + 1)
          else
            match decode_string data pos with
            | .err e => .err e
            | .panic => .panic
            | .ok key kpos =>
                match decode data fuel kpos with
                | .err e => .err e
                | .panic => .panic
                | .ok v vpos =>
                    decodeDictEntries data fuel vpos dictStart
                      (insertKV values key v)
termination_by structural fuel _ _ _ => fuel

/-- `Decoder::decode_list`: skip `l`, run the element loop. -/
def decode_list (data : List Nat) : Nat → Nat → DResult (List BencValue)
  | 0, _ => .panic
  | fuel + 1, pos => decodeListEntries data fuel (pos + 1) []
termination_by structural fuel _ => fuel

/-- The `while !at_trailing_delimiter` loop of `decode_list`. -/
def decodeListEntries (data : List Nat) :
    Nat → Nat → List BencValue → DResult (List BencValue)
  | 0, _, _ => .panic
  | fuel + 1, pos, values =>
      match headByte data pos with
      | none => .err .endingDelimiterNotFound
      | some b =>
          if b = 101 then .ok values (pos + 1)
          else
            match decode data fuel pos with
            | .err e => .err e
            | .panic => .panic
            | .ok v vpos => decodeListEntries data fuel vpos (values ++ [v])
termination_by structural fuel _ _ => fuel

end

/-- Every dict node of a decoded value stores the SHA-1 of some byte range
of the source buffer (the range its own decoding occupied), recursively. -/
inductive ShaInv (data : List Nat) : BencValue → Prop where
  | int : ∀ n, ShaInv data (.int n)
  | str : ∀ s, ShaInv data (.byteString s)
  | list : ∀ vs, (∀ v ∈ vs, ShaInv data v) → ShaInv data (.list vs)
  | dict : ∀ sha entries s e, s ≤ e → e ≤ data.length →
      sha = sha1Bytes ((data.drop s).take (e - s)) →
      (∀ kv ∈ entries, ShaInv data kv.2) →
      ShaInv data (.dict sha entries)

/-! ### `torrent.rs`: `Info` deserialization -/

/-- The serde view `InfoInternal` of the metainfo `info` dict, after the
external bencode deserializer has produced its fields.  Strings are byte
lists. -/
structure InfoInternal where
  name : List Nat
  piece_length : Nat
  length : Nat
  pieces : List Nat

/-- `Info` as built by `Info::deserialize`: the `pieces` byte string chunked
into 20-byte SHA-1s via `chunks_exact(20)`.  The `sha1` field (the SHA-1 of
the re-encoded dict, produced by the external `serde_bencode` serializer) is
outside this embedding; the claim under scrutiny concerns only `pieces`. -/
structure Info where
  name : List Nat
  piece_length : Nat
  length : Nat
  pieces : List (List Nat)

/-- The `Ok(Info { .. })` construction at the end of `Info::deserialize`:
total — no length validation of any kind is performed. -/
def Info.deserialize (ii : InfoInternal) : Info :=
  { name := ii.name
    piece_length := ii.piece_length
    length := ii.length
    pieces := chunksExact 20 ii.pieces }

/-- The number of block requests of all pieces before piece `p`. -/
def blocksBefore (fi : FileInfo) (bl p : Nat) : Nat :=
  ((List.range p).flatMap (pieceReqs fi bl)).length

/-- The bytes of piece `p` of a file: `file[p*pl ..][..pl]`. -/
def pieceChunk (fileData : List Nat) (pl p : Nat) : List Nat :=
  (fileData.drop (p * pl)).take pl

/-! ### `file_downloader.rs`: `FileDownloader::download`

The channel is the test harness's `DownloadChannelFromVector` — it mirrors
the claim's channel: every `request` is queued, and `receive` answers the
oldest outstanding request with exactly the requested bytes of the file. -/

/-- `DownloadChannelFromVector`: the file's pieces plus the FIFO of pending
requests. -/
structure DownloadChannelFromVector where
  pieces : List (List Nat)
  requests : List (Nat × Nat × Nat)
deriving DecidableEq

/-- `request`: push the triple on the queue. -/
def channelRequest (ch : DownloadChannelFromVector) (r : Nat × Nat × Nat) :
    DownloadChannelFromVector :=
  { ch with requests := ch.requests ++ [r] }

/-- `receive`: pop the oldest request and serve
`pieces[piece_index][offset..offset+length]`.  (The slicing panics in Rust
on an out-of-range request; the downloader only ever requests in-bounds
blocks, so `getD`/`drop`/`take` are a faithful totalization.) -/
def channelReceive (ch : DownloadChannelFromVector) :
    Except DlError (Block × DownloadChannelFromVector) :=
  match ch.requests with
  | [] => .error .noBlockRequested
  | (p, o, l) :: rest =>
      .ok (⟨p, o, ((ch.pieces.getD p []).drop o).take l⟩,
        { ch with requests := rest })

/-- One `request_next_block` call against the channel: forward the emitted
request, if any. -/
def emitterSend (e : RequestEmitter) (ch : DownloadChannelFromVector) :
    RequestEmitter × DownloadChannelFromVector :=
  match e.request_next_block with
  | (none, e') => (e', ch)
  | (some r, e') => (e', channelRequest ch r)

/-- `request_first_blocks(queue_length)`. -/
def requestFirstBlocks :
    Nat → RequestEmitter → DownloadChannelFromVector →
    RequestEmitter × DownloadChannelFromVector
  | 0, e, ch => (e, ch)
  | n + 1, e, ch =>
      let (e', ch') := emitterSend e ch
      requestFirstBlocks n e' ch'

/-- The emitter state after `n` `request_next_block` calls. -/
def emitterAfter (e : RequestEmitter) : Nat → RequestEmitter
  | 0 => e
  | n + 1 => emitterAfter e.request_next_block.2 n

/-- `buffer[start..start+data.len()].copy_from_slice(&data)`. -/
def writeSlice (buffer : List Nat) (start : Nat) (data : List Nat) :
    List Nat :=
  buffer.take start ++ data ++ buffer.drop (start + data.length)

/-- Result of `FileDownloader::download`: the filled buffer, an `io::Error`,
or a panic (`piece_hashes[piece_index]` out of bounds). -/
inductive DownloadResult where
  | ok (buffer : List Nat)
  | err (e : DlError)
  | panic
deriving DecidableEq

/-- The `while downloaded_pieces_count < piece_count` loop of
`FileDownloader::download`: receive a block, immediately replenish the
pipeline, compose; on a finished piece verify its hash (mismatch is fatal)
and copy it into the output buffer.  Fuel bounds the loop;
one unit per received block suffices. -/
def downloadLoop (fi : FileInfo) (hashes : List (List Nat)) :
    Nat → DownloadChannelFromVector → RequestEmitter → PieceComposer →
    List Nat → Nat → DownloadResult
  | 0, _, _, _, _, _ => .err .outOfFuel
  | fuel + 1, ch, em, comp, buffer, downloaded =>
      if fi.piece_count ≤ downloaded then .ok buffer
      else
        match channelReceive ch with
        | .error e => .err e
        | .ok (block, ch₁) =>
            let (em', ch₂) := emitterSend em ch₁
            match comp.append_block block with
            | .error e => .err e
            | .ok (none, comp') =>
                downloadLoop fi hashes fuel ch₂ em' comp' buffer downloaded
            | .ok (some piece, comp') =>
                match hashes.get? piece.index with
                | none => .panic
                | some hash =>
                    if sha1Verify hash piece.data then
                      downloadLoop fi hashes fuel ch₂ em' comp'
                        (writeSlice buffer (fi.piece_bounds piece.index).1
                          piece.data)
                        (downloaded + 1)
                    else .err .pieceHashMismatch
termination_by structural fuel _ _ _ _ _ => fuel

/-- `FileDownloader::download` against the in-memory channel serving
`fileData` chunked into pieces: allocate the zeroed output buffer, prime
`queue_length` requests, run the pump. -/
def download (fileData : List Nat) (piece_length : Nat)
    (hashes : List (List Nat)) (block_length queue_length fuel : Nat) :
    DownloadResult :=
  let fi : FileInfo := ⟨fileData.length, piece_length⟩
  let ch₀ : DownloadChannelFromVector := ⟨chunksOf piece_length fileData, []⟩
  let (em₁, ch₁) := requestFirstBlocks queue_length
    (RequestEmitter.new block_length fi) ch₀
  downloadLoop fi hashes fuel ch₁ em₁ (PieceComposer.new fi)
    (List.replicate fi.file_length 0) 0

/-! ### `tracker.rs`: decoding the tracker response -/

/-- `BencValue::as_int`. -/
def BencValue.as_int : BencValue → Option Int
  | .int v => some v
  | _ => none

/-- `BencValue::as_byte_string`. -/
def BencValue.as_byte_string : BencValue → Option (List Nat)
  | .byteString s => some s
  | _ => none

/-- `BencValue::as_list`. -/
def BencValue.as_list : BencValue → Option (List BencValue)
  | .list l => some l
  | _ => none

/-- `BencValue::as_dict` (sha1 and entries of the dict). -/
def BencValue.as_dict : BencValue → Option (List Nat × List (List Nat × BencValue))
  | .dict sha values => some (sha, values)
  | _ => none

/-- `HashMap::get` on the insertion-ordered entry list. -/
def dictGet (values : List (List Nat × BencValue)) (key : List Nat) :
    Option BencValue :=
  match values with
  | [] => none
  | (k, v) :: rest => if k = key then some v else dictGet rest key

/-- Result of `get_peer_list_from_response`: the `(ip, port)` pairs (socket
address resolution via `to_socket_addrs` is external DNS and not modelled),
a decode error, or a panic from one of the `unwrap()` calls. -/
inductive TrackerResult where
  | ok (peers : List (List Nat × Nat))
  | err (e : DecodeError)
  | panic
deriving DecidableEq

/-- One entry of the `peers` list: `.as_dict().unwrap()`, then the `ip` byte
string and the `port` int cast `as u16` (two's-complement truncation,
`Int.emod 65536`); `none` is a Rust panic. -/
def peerEntry (v : BencValue) : Option (List Nat × Nat) :=
  match v.as_dict with
  | none => none
  | some (_, values) =>
      match (dictGet values [105, 112]).bind BencValue.as_byte_string with
      | none => none
      | some ip =>
          match (dictGet values [112, 111, 114, 116]).bind BencValue.as_int with
          | none => none
          | some port => some (ip, (port.emod 65536).toNat)

/-- The `map` over the peer entries; any malformed entry panics the whole
call. -/
def collectPeers : List BencValue → Option (List (List Nat × Nat))
  | [] => some []
  | v :: rest =>
      match peerEntry v with
      | none => none
      | some p => (collectPeers rest).map (p :: ·)

/-- `get_peer_list_from_response`.  The entry `decode_dict` wrapper (in
`bencoding.rs`, shaped like `decode_torrent_file`: `Decoder::new(data)
.decode_dict()`) propagates decoder errors with `?`; the subsequent
`.get("peers").unwrap().as_list().unwrap()` and the per-peer unwraps panic
on `None`. -/
def get_peer_list_from_response (tracker_response : List Nat) : TrackerResult :=
  match decode_dict tracker_response (tracker_response.length + 1) 0 with
  | .err e => .err e
  | .panic => .panic
  | .ok (_, values) _ =>
      match (dictGet values [112, 101, 101, 114, 115]).bind BencValue.as_list with
      | none => .panic
      | some peers =>
          match collectPeers peers with
          | none => .panic
          | some ps => .ok ps

/-- The claim's reading of a complete bitfield: every byte except the last is
`0xFF`, and the top `N` bits of the last byte are set, `N` as in
`piecesInLastByte`. -/
def bitfieldComplete (b : List Nat) (pc : Nat) : Prop :=
  (∀ x ∈ b.dropLast, x = 255) ∧
  ∀ i < piecesInLastByte pc, (b.getLastD 0).testBit (7 - i) = true

instance (b : List Nat) (pc : Nat) : Decidable (bitfieldComplete b pc) := by
  unfold bitfieldComplete; infer_instance

/-! ## Theorems -/

example : sha1Bytes [97, 98, 99] =
    [169, 153, 62, 54, 71, 6, 129, 106, 186, 62, 37, 113, 120, 80, 194, 108,
     156, 208, 216, 157] := by decide

example : sha1Bytes [] =
    [218, 57, 163, 238, 94, 107, 75, 13, 50, 85, 191, 239, 149, 96, 24, 144,
     175, 216, 7, 9] := by decide

example : sha1Bytes [100, 101] =
    [96, 12, 205, 27, 113, 86, 146, 50, 208, 29, 17, 11, 198, 62, 144, 107,
     234, 176, 77, 140] := by decide

/-- Absorption characterization of the mask check `l &&& m == m`. -/
lemma and_mask_eq_iff (l m : Nat) :
    l &&& m = m ↔ ∀ i, m.testBit i = true → l.testBit i = true := by
  constructor
  · intro h i hm
    have hb := congrArg (fun x => x.testBit i) h
    simp only [Nat.testBit_and] at hb
    cases hl : l.testBit i
    · rw [hl, hm] at hb; simp at hb
    · rfl
  · intro h
    apply Nat.eq_of_testBit_eq
    intro i
    rw [Nat.testBit_and]
    cases hm : m.testBit i
    · simp
    · simp [h i hm]

/-- For `1 ≤ n ≤ 8` the signed-shift mask equals `(2^n - 1) <<< (8 - n)`:
the top `n` bits of a byte. -/
lemma lastByteMask_shift (n : Nat) (h1 : 1 ≤ n) (h8 : n ≤ 8) :
    lastByteMask n = (2 ^ n - 1) <<< (8 - n) := by
  interval_cases n <;> decide

/-- Which bits the mask has set: exactly positions `8 - n` through `7`. -/
lemma lastByteMask_testBit (n i : Nat) (h1 : 1 ≤ n) (h8 : n ≤ 8) :
    (lastByteMask n).testBit i = decide (8 - n ≤ i ∧ i < 8) := by
  rw [lastByteMask_shift n h1 h8, Nat.testBit_shiftLeft,
    Nat.testBit_two_pow_sub_one]
  by_cases h : 8 - n ≤ i
  · have hiff : (i - (8 - n) < n) ↔ (i < 8) := by omega
    simp [h, hiff]
  · simp [h]

/-- The mask check on the last byte says exactly: its top `n` bits are set. -/
lemma lastByte_mask_check_iff (lb n : Nat) (h1 : 1 ≤ n) (h8 : n ≤ 8) :
    lb &&& lastByteMask n = lastByteMask n ↔
      ∀ i < n, lb.testBit (7 - i) = true := by
  rw [and_mask_eq_iff]
  constructor
  · intro h i hi
    apply h
    rw [lastByteMask_testBit n _ h1 h8]
    simp; omega
  · intro h j hj
    rw [lastByteMask_testBit n _ h1 h8] at hj
    simp at hj
    have h7 : 7 - (7 - j) = j := by omega
    have := h (7 - j) (by omega)
    rwa [h7] at this

/-- `check_bitfield_completeness` returns `ok` iff the bitfield is complete
in the claim's sense. -/
lemma completeness_ok_iff (b : List Nat) (pc : Nat) :
    check_bitfield_completeness b pc = .ok ↔ bitfieldComplete b pc := by
  have h1 : 1 ≤ piecesInLastByte pc := by
    unfold piecesInLastByte; split <;> omega
  have h8 : piecesInLastByte pc ≤ 8 := by
    unfold piecesInLastByte; split
    · omega
    · exact Nat.le_of_lt (Nat.lt_of_lt_of_le (Nat.mod_lt _ (by omega)) (by omega))
  unfold check_bitfield_completeness bitfieldComplete
  by_cases hany : b.dropLast.any (fun byte => byte ≠ 255)
  · simp only [hany, if_true]
    rw [List.any_eq_true] at hany
    obtain ⟨x, hx, hx255⟩ := hany
    simp only [decide_eq_true_eq] at hx255
    constructor
    · intro h; cases h
    · rintro ⟨hall, -⟩; exact absurd (hall x hx) hx255
  · simp only [hany, if_false]
    have hall : ∀ x ∈ b.dropLast, x = 255 := by
      intro x hx
      by_contra hne
      exact hany (List.any_eq_true.mpr ⟨x, hx, by simpa using hne⟩)
    by_cases hmask : b.getLastD 0 &&& lastByteMask (piecesInLastByte pc) =
        lastByteMask (piecesInLastByte pc)
    · simp only [hmask, ne_eq, not_true_eq_false, if_false]
      rw [lastByte_mask_check_iff _ _ h1 h8] at hmask
      exact ⟨fun _ => ⟨hall, hmask⟩, fun _ => rfl⟩
    · simp only [hmask, ne_eq, not_false_eq_true, if_true]
      rw [lastByte_mask_check_iff _ _ h1 h8] at hmask
      constructor
      · intro h; cases h
      · rintro ⟨-, htop⟩; exact absurd htop hmask

/-- `check_bitfield_completeness` never returns any error other than
`IncompleteFile`. -/
lemma completeness_err (b : List Nat) (pc : Nat)
    (h : check_bitfield_completeness b pc ≠ .ok) :
    check_bitfield_completeness b pc = .err .incompleteFile := by
  unfold check_bitfield_completeness at h ⊢
  split
  · rfl
  · split
    · rfl
    · rename_i h1 h2
      rw [if_neg h1, if_neg h2] at h
      exact absurd rfl h

/-- C3: for `piece_count ≥ 1`, the bitfield validation of
`request_complete_file` fails with `BitfieldSizeMismatch{expected, received}`
whenever the bitfield length differs from `ceil(piece_count / 8)`; with the
right length it succeeds exactly when all bytes except the last are `0xFF`
and the top `piecesInLastByte piece_count` bits of the last byte are set
(lower bits ignored), and otherwise fails with `IncompleteFile`. -/
theorem bitfield_validation_spec (pc : Nat) (b : List Nat) (_hpc : 1 ≤ pc) :
    (b.length ≠ divCeil pc 8 →
       checkBitfield b pc = .err (.bitfieldSizeMismatch (divCeil pc 8) b.length)) ∧
    (b.length = divCeil pc 8 →
       (checkBitfield b pc = .ok ↔ bitfieldComplete b pc) ∧
       (¬ bitfieldComplete b pc → checkBitfield b pc = .err .incompleteFile)) := by
  constructor
  · intro hne
    unfold checkBitfield check_bitfield_size
    simp [hne]
  · intro hlen
    have hsize : check_bitfield_size b.length pc = .ok := by
      unfold check_bitfield_size; simp [hlen]
    have hcb : checkBitfield b pc = check_bitfield_completeness b pc := by
      unfold checkBitfield; rw [hsize]
    rw [hcb]
    refine ⟨completeness_ok_iff b pc, ?_⟩
    intro hnc
    apply completeness_err
    intro hok
    exact hnc ((completeness_ok_iff b pc).mp hok)

/-- Witness for C3: `piece_count = 10`, bitfield `[0xFF, 0b11001000]` (the
redundant low bits of the last byte differ from `1`) passes validation. -/
theorem bitfield_validation_witness : checkBitfield [255, 200] 10 = .ok :=
  ((bitfield_validation_spec 10 [255, 200] (by decide)).2 (by decide)).1.mpr
    (by decide)

lemma beBytes_length (k n : Nat) : (beBytes k n).length = k := by
  induction k generalizing n with
  | zero => rfl
  | succ k ih => simp [beBytes, ih]

lemma fromBeBytes_append_one (l : List Nat) (b : Nat) :
    fromBeBytes (l ++ [b]) = fromBeBytes l * 256 + b := by
  simp [fromBeBytes, List.foldl_append]

/-- Big-endian encode/decode round-trip: `fromBeBytes ∘ beBytes k` is
reduction modulo `256^k`. -/
lemma fromBeBytes_beBytes (k n : Nat) :
    fromBeBytes (beBytes k n) = n % 256 ^ k := by
  induction k generalizing n with
  | zero => simp [beBytes, fromBeBytes, Nat.mod_one]
  | succ k ih =>
      rw [beBytes, fromBeBytes_append_one, ih,
        show 256 ^ (k + 1) = 256 * 256 ^ k from by ring, Nat.mod_mul]
      generalize n / 256 % 256 ^ k = m
      omega

/-- Decoding a single well-formed frame: the length prefix is consumed, the
id is dispatched, the payload and empty rest are returned. -/
lemma receive_msgFrame (id : Nat) (payload : List Nat)
    (h : payload.length + 1 < 4294967296) :
    PeerMessage.receive (msgFrame id payload) =
      if id = 1 then .ok .unchoke []
      else if id = 5 then .ok (.bitfield payload) []
      else if id = 7 then
        if payload.length < 4 then .panic
        else if payload.length < 8 then .panic
        else .ok (.piece (fromBeBytes (payload.take 4))
            (fromBeBytes ((payload.drop 4).take 4)) (payload.drop 8)) []
      else .ok (.unknown id payload) [] := by
  have hbe : (beBytes 4 (payload.length + 1)).length = 4 := beBytes_length 4 _
  have hframe : (msgFrame id payload).length = 5 + payload.length := by
    simp [msgFrame, hbe]; omega
  have htake : (msgFrame id payload).take 4 = beBytes 4 (payload.length + 1) := by
    rw [msgFrame, List.take_append_of_le_length (by omega), List.take_of_length_le (by omega)]
  have hdrop : (msgFrame id payload).drop 4 = id :: payload := by
    rw [msgFrame, List.drop_append_of_le_length (by omega),
      List.drop_of_length_le (by omega)]
    simp
  have hw : fromBeBytes ((msgFrame id payload).take 4) = payload.length + 1 := by
    rw [htake, fromBeBytes_beBytes]
    exact Nat.mod_eq_of_lt (by simpa using h)
  rw [PeerMessage.receive, hframe]
  rw [show 5 + payload.length + 1 = payload.length + 5 + 1 from by omega]
  rw [readLenLoop]
  rw [if_neg (by rw [hframe]; omega), hw, if_neg (by omega), hdrop]
  unfold readMessagePayload
  simp only [List.length_cons, List.drop_succ_cons, List.drop_zero,
    List.tail_cons, List.headD_cons]
  rw [if_neg (by omega), if_neg (by omega)]
  simp only [Nat.add_sub_cancel, List.take_length, List.drop_length]

/-- C6 counterexample: `send`ing `Interested` produces `[0,0,0,1,2]`, but
`receive` on those bytes yields `Unknown{id: 2, payload: []}`, not
`Interested`: the decoder has no arm for id 2. -/
theorem send_receive_not_inverse :
    PeerMessage.sendBytes .interested = some [0, 0, 0, 1, 2] ∧
    PeerMessage.receive [0, 0, 0, 1, 2] = .ok (.unknown 2 []) [] := by
  constructor <;> decide

/-- C6 amended: decoding the bytes produced by `send` yields
`Unknown{id, payload}` carrying the sent message's wire id and payload
(id 2 and empty payload for `Interested`; id 6 and the three big-endian
`u32` fields for `Request`), not the original variant. -/
theorem send_receive_yields_unknown (p o l : Nat) :
    (PeerMessage.sendBytes .interested = some (msgFrame 2 []) ∧
     PeerMessage.receive (msgFrame 2 []) = .ok (.unknown 2 []) []) ∧
    (PeerMessage.sendBytes (.request p o l) =
        some (msgFrame 6 (beBytes 4 p ++ beBytes 4 o ++ beBytes 4 l)) ∧
     PeerMessage.receive (msgFrame 6 (beBytes 4 p ++ beBytes 4 o ++ beBytes 4 l)) =
        .ok (.unknown 6 (beBytes 4 p ++ beBytes 4 o ++ beBytes 4 l)) []) := by
  have hlen : (beBytes 4 p ++ beBytes 4 o ++ beBytes 4 l).length = 12 := by
    simp [beBytes_length]
  refine ⟨⟨rfl, by decide⟩, ⟨?_, ?_⟩⟩
  · have hfr : msgFrame 6 (beBytes 4 p ++ beBytes 4 o ++ beBytes 4 l) =
        [0, 0, 0, 13, 6] ++ (beBytes 4 p ++ beBytes 4 o ++ beBytes 4 l) := by
      rw [msgFrame, hlen]; rfl
    simp only [PeerMessage.sendBytes, hfr, Option.some.injEq]
    simp [List.append_assoc]
  · rw [receive_msgFrame 6 _ (by rw [hlen]; omega)]
    rw [if_neg (by omega), if_neg (by omega), if_neg (by omega)]

/-- C9: a Piece frame (id 7) whose payload is shorter than 8 bytes makes
`PeerMessage::receive` panic on the `payload[0..4]` / `payload[4..8]`
slices rather than return an `io::Error`; with at least 8 payload bytes the
slicing is in bounds and a `Piece` message is returned. -/
theorem receive_piece_short_payload (payload : List Nat)
    (h : payload.length + 1 < 4294967296) :
    (payload.length < 8 → PeerMessage.receive (msgFrame 7 payload) = .panic) ∧
    (8 ≤ payload.length →
       PeerMessage.receive (msgFrame 7 payload) =
         .ok (.piece (fromBeBytes (payload.take 4))
           (fromBeBytes ((payload.drop 4).take 4)) (payload.drop 8)) []) := by
  rw [receive_msgFrame 7 payload h]
  rw [if_neg (by omega), if_neg (by omega), if_pos rfl]
  constructor
  · intro h8
    by_cases h4 : payload.length < 4
    · rw [if_pos h4]
    · rw [if_neg h4, if_pos h8]
  · intro h8
    rw [if_neg (by omega), if_neg (by omega)]

/-! Piece composer (C4) -/

/-- One successful or failing `append_block` step on a state whose
`piece_index` is unset or matches the block. -/
lemma append_block_step (fi : FileInfo) (pi : Option Nat) (buf : List Nat)
    (p : Nat) (c : List Nat) (hpi : pi = none ∨ pi = some p) :
    PieceComposer.append_block ⟨pi, buf, fi⟩ ⟨p, buf.length, c⟩ =
      (if fi.pieceLength p ≤ (buf ++ c).length then
        .ok (some ⟨p, buf ++ c⟩, ⟨none, [], fi⟩)
      else .ok (none, ⟨some p, buf ++ c, fi⟩)) := by
  rcases hpi with h | h <;> subst h <;>
    simp [PieceComposer.append_block]

/-- Unfolding one successful `appendBlocks` step. -/
lemma appendBlocks_cons_ok (c : PieceComposer) (b : Block) (bs : List Block)
    (out : Option Piece) (c' : PieceComposer)
    (h : c.append_block b = .ok (out, c')) :
    c.appendBlocks (b :: bs) =
      match c'.appendBlocks bs with
      | .error e => .error e
      | .ok (outs, c'') => .ok (out :: outs, c'') := by
  rw [PieceComposer.appendBlocks, h]

/-- Running the composer over a gap-free in-order partition of the remaining
bytes of piece `p`: every block but the last yields `none`, the last yields
the assembled piece, and the composer resets. -/
lemma appendBlocks_partition (fi : FileInfo) (p : Nat)
    (chunks : List (List Nat)) :
    ∀ (buf : List Nat) (pi : Option Nat), (pi = none ∨ pi = some p) →
    chunks ≠ [] → (∀ c ∈ chunks, c ≠ []) →
    buf.length + (chunks.map List.length).sum = fi.pieceLength p →
    PieceComposer.appendBlocks ⟨pi, buf, fi⟩ (mkBlocks p buf.length chunks) =
      .ok (List.replicate (chunks.length - 1) none ++
        [some ⟨p, buf ++ chunks.flatten⟩], PieceComposer.new fi) := by
  induction chunks with
  | nil => intro buf pi _ hne _ _; exact absurd rfl hne
  | cons c cs ih =>
      intro buf pi hpi _ hce htot
      rw [mkBlocks]
      cases cs with
      | nil =>
          have hlen : fi.pieceLength p ≤ (buf ++ c).length := by
            simp at htot ⊢; omega
          simp only [PieceComposer.appendBlocks,
            append_block_step fi pi buf p c hpi, if_pos hlen]
          simp [PieceComposer.new]
      | cons c' cs' =>
          have hc' : 1 ≤ c'.length := by
            have := hce c' (by simp)
            cases c' <;> simp_all
          have hlt : ¬ fi.pieceLength p ≤ (buf ++ c).length := by
            simp at htot ⊢
            omega
          rw [show buf.length + c.length = (buf ++ c).length from by simp]
          rw [appendBlocks_cons_ok _ _ _ none ⟨some p, buf ++ c, fi⟩
            (by rw [append_block_step fi pi buf p c hpi, if_neg hlt])]
          rw [ih (buf ++ c) (some p) (Or.inr rfl) (by simp)
            (fun x hx => hce x (List.mem_cons_of_mem _ hx))
            (by simp at htot ⊢; omega)]
          simp [List.replicate_succ, List.append_assoc]

/-- C4: on an ascending gap-free partition of one piece's bytes,
`append_block` answers `Ok(None)` for every block but the last and
`Ok(Some(piece))` for the last, the piece carrying the concatenated data
(whose length is the effective piece length by the partition hypothesis);
a block with the wrong offset fails with `UnexpectedBlockOffset{expected,
actual}` where `expected` is the bytes buffered so far, and a block with the
wrong piece index fails with `UnexpectedPieceIndex{expected, actual}`. -/
theorem piece_composer_spec :
    (∀ (fi : FileInfo) (p : Nat) (chunks : List (List Nat)),
       chunks ≠ [] → (∀ c ∈ chunks, c ≠ []) →
       (chunks.map List.length).sum = fi.pieceLength p →
       PieceComposer.appendBlocks (PieceComposer.new fi) (mkBlocks p 0 chunks) =
         .ok (List.replicate (chunks.length - 1) none ++
           [some ⟨p, chunks.flatten⟩], PieceComposer.new fi)) ∧
    (∀ (c : PieceComposer) (b : Block),
       (c.piece_index = none ∨ c.piece_index = some b.piece_index) →
       b.offset ≠ c.buffer.length →
       c.append_block b = .error (.unexpectedBlockOffset c.buffer.length b.offset)) ∧
    (∀ (c : PieceComposer) (b : Block) (e : Nat),
       c.piece_index = some e → e ≠ b.piece_index →
       c.append_block b = .error (.unexpectedPieceIndex e b.piece_index)) := by
  refine ⟨?_, ?_, ?_⟩
  · intro fi p chunks hne hce htot
    have h := appendBlocks_partition fi p chunks [] none (Or.inl rfl) hne hce
      (by simpa using htot)
    simpa [PieceComposer.new] using h
  · intro c b hpi hoff
    obtain ⟨pi, buf, fi⟩ := c
    obtain ⟨bp, bo, bd⟩ := b
    simp at hpi hoff
    rcases hpi with h | h <;> subst h <;>
      simp [PieceComposer.append_block, hoff] <;> omega
  · intro c b e hpi hne
    obtain ⟨pi, buf, fi⟩ := c
    obtain ⟨bp, bo, bd⟩ := b
    simp at hpi hne ⊢
    subst hpi
    simp [PieceComposer.append_block, hne]

/-- Witness for C4: the two-block partition `[1..5], [6,7]` of the short
last piece of a 17-byte file with 10-byte pieces, plus a wrong-offset
error. -/
theorem piece_composer_witness :
    PieceComposer.appendBlocks (PieceComposer.new ⟨17, 10⟩)
      (mkBlocks 1 0 [[1, 2, 3, 4, 5], [6, 7]]) =
      .ok ([none, some ⟨1, [1, 2, 3, 4, 5, 6, 7]⟩], PieceComposer.new ⟨17, 10⟩) ∧
    PieceComposer.append_block ⟨some 0, [1, 2, 3], ⟨17, 10⟩⟩ ⟨0, 5, [9]⟩ =
      .error (.unexpectedBlockOffset 3 5) :=
  ⟨by
    have h := piece_composer_spec.1 ⟨17, 10⟩ 1 [[1, 2, 3, 4, 5], [6, 7]]
      (by decide) (by decide) (by decide)
    simpa using h,
   piece_composer_spec.2.1 ⟨some 0, [1, 2, 3], ⟨17, 10⟩⟩ ⟨0, 5, [9]⟩
     (Or.inr rfl) (by decide)⟩

/-! Request emitter (C5) -/

lemma divCeil_le_iff (a b c : Nat) (hb : 0 < b) :
    divCeil a b ≤ c ↔ a ≤ b * c := by
  unfold divCeil
  rw [Nat.div_le_iff_le_mul_add_pred hb]
  omega

lemma divCeil_zero (b : Nat) : divCeil 0 b = 0 := by
  unfold divCeil
  rcases b with _ | b
  · rfl
  · exact Nat.div_eq_of_lt (by omega)

lemma divCeil_pos (a b : Nat) (ha : 0 < a) (hb : 0 < b) : 0 < divCeil a b := by
  by_contra h
  push_neg at h
  have := (divCeil_le_iff a b 0 hb).mp (by omega)
  omega

/-- `piece_bounds` unfolded into a single clamped difference. -/
lemma pieceLength_eq (fi : FileInfo) (p : Nat) :
    fi.pieceLength p =
      (if fi.file_length < (p + 1) * fi.piece_length then fi.file_length
       else (p + 1) * fi.piece_length) - p * fi.piece_length := by
  simp [FileInfo.pieceLength, FileInfo.piece_bounds]

/-- Past the last piece the effective piece length is `0`. -/
lemma pieceLength_of_ge (fi : FileInfo) (p : Nat) (hpl : 0 < fi.piece_length)
    (h : fi.piece_count ≤ p) : fi.pieceLength p = 0 := by
  unfold FileInfo.piece_count at h
  have h1 : fi.file_length ≤ fi.piece_length * p :=
    (divCeil_le_iff _ _ _ hpl).mp h
  have h2 : (p + 1) * fi.piece_length = p * fi.piece_length + fi.piece_length := by
    ring
  have h3 : fi.piece_length * p = p * fi.piece_length := by ring
  rw [pieceLength_eq]
  split <;> omega

/-- Every piece before `piece_count` is non-empty. -/
lemma pieceLength_pos (fi : FileInfo) (p : Nat) (hpl : 0 < fi.piece_length)
    (h : p < fi.piece_count) : 0 < fi.pieceLength p := by
  unfold FileInfo.piece_count at h
  have h1 : fi.piece_length * p < fi.file_length := by
    by_contra hle
    push_neg at hle
    have := (divCeil_le_iff fi.file_length fi.piece_length p hpl).mpr hle
    omega
  have h2 : (p + 1) * fi.piece_length = p * fi.piece_length + fi.piece_length := by
    ring
  have h3 : fi.piece_length * p = p * fi.piece_length := by ring
  rw [pieceLength_eq]
  split <;> omega

/-- Peeling one piece off the tail of the request sequence. -/
lemma specRequestsFrom_unfold (fi : FileInfo) (bl p : Nat)
    (hpl : 0 < fi.piece_length) :
    specRequestsFrom fi bl p =
      pieceReqs fi bl p ++ specRequestsFrom fi bl (p + 1) := by
  rcases Nat.lt_or_ge p fi.piece_count with h | h
  · unfold specRequestsFrom
    rw [show fi.piece_count - p = (fi.piece_count - (p + 1)) + 1 from by omega,
      List.range'_succ, List.flatMap_cons]
  · have hz : fi.pieceLength p = 0 := pieceLength_of_ge fi p hpl h
    unfold specRequestsFrom
    rw [show fi.piece_count - p = 0 from by omega,
      show fi.piece_count - (p + 1) = 0 from by omega]
    simp [pieceReqs, hz, divCeil_zero]

/-- The state-machine invariant of the emitter: from state `(p, k)` the next
`n` requests are the spec sequence from position `k` of piece `p` on. -/
lemma emitRun_invariant (fi : FileInfo) (bl : Nat) (hbl : 0 < bl)
    (hpl : 0 < fi.piece_length) :
    ∀ n p k, (k < divCeil (fi.pieceLength p) bl ∨ fi.piece_count ≤ p) →
    emitRun ⟨bl, p, k, fi⟩ n =
      ((pieceReqs fi bl p).drop k ++ specRequestsFrom fi bl (p + 1)).take n := by
  intro n
  induction n with
  | zero => intro p k _; rfl
  | succ n ih =>
      intro p k hk
      rcases Nat.lt_or_ge p fi.piece_count with hp | hp
      · have hkB : k < divCeil (fi.pieceLength p) bl := by
          rcases hk with h | h
          · exact h
          · omega
        have hlenPR : (pieceReqs fi bl p).length =
            divCeil (fi.pieceLength p) bl := by simp [pieceReqs]
        have hdropk : (pieceReqs fi bl p).drop k =
            (p, k * bl, min bl (fi.pieceLength p - k * bl)) ::
              (pieceReqs fi bl p).drop (k + 1) := by
          rw [List.drop_eq_getElem_cons (by rw [hlenPR]; exact hkB)]
          congr 1
          simp [pieceReqs]
        by_cases hroll : divCeil (fi.pieceLength p) bl ≤ k + 1
        · have hstep : (⟨bl, p, k, fi⟩ : RequestEmitter).request_next_block =
              (some (p, k * bl, min bl (fi.pieceLength p - k * bl)),
               ⟨bl, p + 1, 0, fi⟩) := by
            simp [RequestEmitter.request_next_block, Nat.not_le.mpr hp, hroll]
          have hnext : 0 < divCeil (fi.pieceLength (p + 1)) bl ∨
              fi.piece_count ≤ p + 1 := by
            rcases Nat.lt_or_ge (p + 1) fi.piece_count with h | h
            · exact Or.inl (divCeil_pos _ _ (pieceLength_pos fi (p + 1) hpl h) hbl)
            · exact Or.inr h
          have hdrop1 : (pieceReqs fi bl p).drop (k + 1) = [] := by
            apply List.drop_eq_nil_of_le
            rw [hlenPR]; omega
          simp only [emitRun, hstep]
          rw [ih (p + 1) 0 hnext, hdropk, hdrop1]
          rw [List.drop_zero, ← specRequestsFrom_unfold fi bl (p + 1) hpl]
          simp [List.take_succ_cons]
        · have hstep : (⟨bl, p, k, fi⟩ : RequestEmitter).request_next_block =
              (some (p, k * bl, min bl (fi.pieceLength p - k * bl)),
               ⟨bl, p, k + 1, fi⟩) := by
            simp [RequestEmitter.request_next_block, Nat.not_le.mpr hp, hroll]
          simp only [emitRun, hstep]
          rw [ih p (k + 1) (Or.inl (by omega)), hdropk]
          simp [List.take_succ_cons]
      · have h0 : fi.pieceLength p = 0 := pieceLength_of_ge fi p hpl hp
        have hpr : pieceReqs fi bl p = [] := by
          simp [pieceReqs, h0, divCeil_zero]
        have hfrom : specRequestsFrom fi bl (p + 1) = [] := by
          unfold specRequestsFrom
          rw [show fi.piece_count - (p + 1) = 0 from by omega]
          rfl
        have hstep : (⟨bl, p, k, fi⟩ : RequestEmitter).request_next_block =
            (none, ⟨bl, p, k, fi⟩) := by
          simp [RequestEmitter.request_next_block, hp]
        simp only [emitRun, hstep]
        rw [ih p k hk]
        rw [hpr, hfrom]
        simp

/-- A fresh emitter's first `n` emissions are the first `n` entries of the
spec request sequence. -/
lemma emitRun_new_take (fi : FileInfo) (bl n : Nat) (hbl : 0 < bl)
    (hpl : 0 < fi.piece_length) :
    emitRun (RequestEmitter.new bl fi) n = (specRequests fi bl).take n := by
  have hk : 0 < divCeil (fi.pieceLength 0) bl ∨ fi.piece_count ≤ 0 := by
    rcases Nat.eq_zero_or_pos fi.piece_count with h | h
    · exact Or.inr (by omega)
    · exact Or.inl (divCeil_pos _ _ (pieceLength_pos fi 0 hpl h) hbl)
  have hinv := emitRun_invariant fi bl hbl hpl n 0 0 hk
  have h0 : specRequests fi bl = specRequestsFrom fi bl 0 := by
    unfold specRequests specRequestsFrom
    rw [Nat.sub_zero, List.range_eq_range']
  rw [RequestEmitter.new]
  rw [hinv, h0, specRequestsFrom_unfold fi bl 0 hpl]
  simp

/-- C5: `n` successive `request_next_block` calls from a fresh emitter send
exactly the first `n` entries of the spec sequence that enumerates every
piece's blocks in order (`offset = k * block_length`,
`length = min(block_length, L - offset)`, `ceil(L / block_length)` blocks per
piece); past the end of the sequence the emitter sends nothing. -/
theorem request_emitter_spec (fi : FileInfo) (bl n : Nat) (hbl : 0 < bl)
    (hpl : 0 < fi.piece_length) :
    emitRun (RequestEmitter.new bl fi) n = (specRequests fi bl).take n :=
  emitRun_new_take fi bl n hbl hpl

/-- Witness for C5: `file_length = 15`, `piece_length = 10`,
`block_length = 10` emits `(0,0,10), (1,0,5)` and then nothing. -/
theorem request_emitter_witness :
    emitRun (RequestEmitter.new 10 ⟨15, 10⟩) 3 = [(0, 0, 10), (1, 0, 5)] :=
  (request_emitter_spec ⟨15, 10⟩ 10 3 (by decide) (by decide)).trans (by decide)

/-! Bencoding decoder (C2, C8) -/

lemma position_lt {p : Nat → Bool} :
    ∀ {l : List Nat} {i : Nat}, position p l = some i → i < l.length := by
  intro l
  induction l with
  | nil => intro i h; cases h
  | cons b rest ih =>
      intro i h
      rw [position] at h
      split at h
      · cases h; simp
      · cases hr : position p rest with
        | none => rw [hr] at h; cases h
        | some j =>
            rw [hr] at h
            simp at h
            subst h
            have := ih hr
            simp
            omega

lemma headByte_some_lt {data : List Nat} {pos b : Nat}
    (h : headByte data pos = some b) : pos < data.length := by
  unfold headByte at h
  by_contra hge
  push_neg at hge
  rw [List.drop_eq_nil_of_le hge] at h
  cases h

lemma decode_string_bounds {data : List Nat} {pos pos' : Nat} {s : List Nat}
    (h : decode_string data pos = .ok s pos') :
    pos ≤ pos' ∧ pos' ≤ data.length := by
  unfold decode_string at h
  cases hp : position (fun b => b = 58) (data.drop pos) with
  | none => rw [hp] at h; cases h
  | some di =>
      rw [hp] at h
      have hdi : di < data.length - pos := by
        have := position_lt hp
        simpa using this
      simp only at h
      cases hl : parse_usize ((data.drop pos).take di) with
      | none => rw [hl] at h; cases h
      | some slen =>
          rw [hl] at h
          simp only at h
          split at h
          · cases h
          · rename_i hrest
            cases h
            push_neg at hrest
            have : (data.drop (pos + di + 1)).length =
                data.length - (pos + di + 1) := by simp
            omega

lemma decode_int_bounds {data : List Nat} {pos pos' : Nat} {v : Int}
    (h : decode_int data pos = .ok v pos') :
    pos ≤ pos' ∧ pos' ≤ data.length := by
  unfold decode_int at h
  cases hp : position (fun b => b = 101) (data.drop (pos + 1)) with
  | none => rw [hp] at h; cases h
  | some ei =>
      rw [hp] at h
      have hei : ei < data.length - (pos + 1) := by
        have := position_lt hp
        simpa using this
      simp only at h
      cases hl : parse_i64 ((data.drop (pos + 1)).take ei) with
      | none => rw [hl] at h; cases h
      | some w =>
          rw [hl] at h
          cases h
          omega

lemma insertKV_mem {values : List (List Nat × BencValue)} {key : List Nat}
    {v : BencValue} :
    ∀ kv ∈ insertKV values key v, kv ∈ values ∨ kv = (key, v) := by
  induction values with
  | nil => intro kv hkv; simp [insertKV] at hkv; exact Or.inr hkv
  | cons p rest ih =>
      intro kv hkv
      rw [insertKV] at hkv
      split at hkv
      · rcases List.mem_cons.mp hkv with h | h
        · exact Or.inr h
        · exact Or.inl (List.mem_cons_of_mem _ h)
      · rcases List.mem_cons.mp hkv with h | h
        · exact Or.inl (h ▸ List.mem_cons_self _ _)
        · rcases ih kv h with h' | h'
          · exact Or.inl (List.mem_cons_of_mem _ h')
          · exact Or.inr h'

/-- The joint fuel induction: every successful decoder call moves the cursor
forward within the buffer, every decoded dict stores the SHA-1 of the exact
byte range it was decoded from, and the invariant propagates into every
nested value. -/
lemma decode_bounds_sha (data : List Nat) : ∀ fuel : Nat,
    (∀ pos v pos', decode data fuel pos = .ok v pos' →
       pos ≤ pos' ∧ pos' ≤ data.length ∧ ShaInv data v) ∧
    (∀ pos r pos', decode_dict data fuel pos = .ok r pos' →
       pos ≤ pos' ∧ pos' ≤ data.length ∧
       r.1 = sha1Bytes ((data.drop pos).take (pos' - pos)) ∧
       ShaInv data (.dict r.1 r.2)) ∧
    (∀ pos dictStart values r pos',
       decodeDictEntries data fuel pos dictStart values = .ok r pos' →
       pos ≤ pos' ∧ pos' ≤ data.length ∧
       r.1 = sha1Bytes ((data.drop dictStart).take (pos' - dictStart)) ∧
       ((∀ kv ∈ values, ShaInv data kv.2) → ∀ kv ∈ r.2, ShaInv data kv.2)) ∧
    (∀ pos vs pos', decode_list data fuel pos = .ok vs pos' →
       pos ≤ pos' ∧ pos' ≤ data.length ∧ ∀ v ∈ vs, ShaInv data v) ∧
    (∀ pos values vs pos', decodeListEntries data fuel pos values = .ok vs pos' →
       pos ≤ pos' ∧ pos' ≤ data.length ∧
       ((∀ v ∈ values, ShaInv data v) → ∀ v ∈ vs, ShaInv data v)) := by
  intro fuel
  induction fuel with
  | zero =>
      refine ⟨?_, ?_, ?_, ?_, ?_⟩ <;> intros <;>
        exact DResult.noConfusion (by assumption)
  | succ fuel ih =>
      obtain ⟨ihV, ihD, ihDE, ihL, ihLE⟩ := ih
      refine ⟨?_, ?_, ?_, ?_, ?_⟩
      · -- decode
        intro pos v pos' h
        rw [decode] at h
        cases hhb : headByte data pos with
        | none => rw [hhb] at h; cases h
        | some b =>
            rw [hhb] at h
            simp only at h
            by_cases h105 : b = 105
            · rw [if_pos h105] at h
              cases hi : decode_int data pos with
              | ok w p =>
                  rw [hi] at h
                  cases h
                  have := decode_int_bounds hi
                  exact ⟨this.1, this.2, ShaInv.int _⟩
              | err e => rw [hi] at h; cases h
              | panic => rw [hi] at h; cases h
            · rw [if_neg h105] at h
              by_cases h100 : b = 100
              · rw [if_pos h100] at h
                cases hd : decode_dict data fuel pos with
                | ok r p =>
                    rw [hd] at h
                    cases h
                    have := ihD pos r _ hd
                    exact ⟨this.1, this.2.1, this.2.2.2⟩
                | err e => rw [hd] at h; cases h
                | panic => rw [hd] at h; cases h
              · rw [if_neg h100] at h
                by_cases h108 : b = 108
                · rw [if_pos h108] at h
                  cases hl : decode_list data fuel pos with
                  | ok vs p =>
                      rw [hl] at h
                      cases h
                      have := ihL pos vs _ hl
                      exact ⟨this.1, this.2.1, ShaInv.list _ this.2.2⟩
                  | err e => rw [hl] at h; cases h
                  | panic => rw [hl] at h; cases h
                · rw [if_neg h108] at h
                  cases hs : decode_string data pos with
                  | ok s p =>
                      rw [hs] at h
                      cases h
                      have := decode_string_bounds hs
                      exact ⟨this.1, this.2, ShaInv.str _⟩
                  | err e => rw [hs] at h; cases h
                  | panic => rw [hs] at h; cases h
      · -- decode_dict
        intro pos r pos' h
        rw [decode_dict] at h
        have he := ihDE (pos + 1) pos [] r pos' h
        refine ⟨by omega, he.2.1, ?_, ?_⟩
        · exact he.2.2.1
        · exact ShaInv.dict r.1 r.2 pos pos' (by omega) he.2.1 he.2.2.1
            (he.2.2.2 (by intro kv hkv; cases hkv))
      · -- decodeDictEntries
        intro pos dictStart values r pos' h
        rw [decodeDictEntries] at h
        cases hhb : headByte data pos with
        | none => rw [hhb] at h; cases h
        | some b =>
            rw [hhb] at h
            simp only at h
            have hposlt := headByte_some_lt hhb
            by_cases h101 : b = 101
            · rw [if_pos h101] at h
              cases h
              exact ⟨by omega, by omega, rfl, fun hv => hv⟩
            · rw [if_neg h101] at h
              cases hs : decode_string data pos with
              | err e => rw [hs] at h; cases h
              | panic => rw [hs] at h; cases h
              | ok key kpos =>
                  rw [hs] at h
                  simp only at h
                  cases hv : decode data fuel kpos with
                  | err e => rw [hv] at h; cases h
                  | panic => rw [hv] at h; cases h
                  | ok v vpos =>
                      rw [hv] at h
                      simp only at h
                      have hsb := decode_string_bounds hs
                      have hvb := ihV kpos v vpos hv
                      have hrec := ihDE vpos dictStart
                        (insertKV values key v) r pos' h
                      refine ⟨by omega, hrec.2.1, hrec.2.2.1, ?_⟩
                      intro hvals
                      apply hrec.2.2.2
                      intro kv hkv
                      rcases insertKV_mem kv hkv with h' | h'
                      · exact hvals kv h'
                      · rw [h']
                        exact hvb.2.2
      · -- decode_list
        intro pos vs pos' h
        rw [decode_list] at h
        have he := ihLE (pos + 1) [] vs pos' h
        exact ⟨by omega, he.2.1, he.2.2 (by intro v hv; cases hv)⟩
      · -- decodeListEntries
        intro pos values vs pos' h
        rw [decodeListEntries] at h
        cases hhb : headByte data pos with
        | none => rw [hhb] at h; cases h
        | some b =>
            rw [hhb] at h
            simp only at h
            have hposlt := headByte_some_lt hhb
            by_cases h101 : b = 101
            · rw [if_pos h101] at h
              cases h
              exact ⟨by omega, by omega, fun hv => hv⟩
            · rw [if_neg h101] at h
              cases hv : decode data fuel pos with
              | err e => rw [hv] at h; cases h
              | panic => rw [hv] at h; cases h
              | ok v vpos =>
                  rw [hv] at h
                  simp only at h
                  have hvb := ihV pos v vpos hv
                  have hrec := ihLE vpos (values ++ [v]) vs pos' h
                  refine ⟨by omega, hrec.2.1, ?_⟩
                  intro hvals
                  apply hrec.2.2
                  intro x hx
                  rcases List.mem_append.mp hx with h' | h'
                  · exact hvals x h'
                  · rw [List.mem_singleton.mp h']
                    exact hvb.2.2

/-- C2: whenever `decode_dict` succeeds on the byte range
`[pos, pos')` — which starts at the `d` and ends just past the matching
`e` — the SHA-1 stored on the resulting dict is the SHA-1 of exactly
`data[pos..pos']`, taken from the original buffer; and (via `ShaInv`) every
nested dict of the result likewise stores the SHA-1 of a byte range of the
source buffer it was decoded from. -/
theorem decode_dict_sha1_spec (data : List Nat) (fuel pos pos' : Nat)
    (sha : List Nat) (entries : List (List Nat × BencValue))
    (h : decode_dict data fuel pos = .ok (sha, entries) pos') :
    sha = sha1Bytes ((data.drop pos).take (pos' - pos)) ∧
    ShaInv data (.dict sha entries) := by
  have hd := (decode_bounds_sha data fuel).2.1 pos (sha, entries) pos' h
  exact ⟨hd.2.2.1, hd.2.2.2⟩

/-- Witness for C2: decoding `d1:ad1:bi1eee` stores the digest of the whole
buffer on the root dict and the digest of `d1:bi1ee` (bytes 4..12) on the
nested dict. -/
theorem decode_dict_sha1_witness :
    sha1Bytes [100, 49, 58, 97, 100, 49, 58, 98, 105, 49, 101, 101, 101] =
      sha1Bytes ((List.drop 0
        [100, 49, 58, 97, 100, 49, 58, 98, 105, 49, 101, 101, 101]).take
          (13 - 0)) ∧
    ShaInv [100, 49, 58, 97, 100, 49, 58, 98, 105, 49, 101, 101, 101]
      (.dict (sha1Bytes [100, 49, 58, 97, 100, 49, 58, 98, 105, 49, 101, 101, 101])
        [([97], .dict (sha1Bytes [100, 49, 58, 98, 105, 49, 101, 101])
          [([98], .int 1)])]) :=
  decode_dict_sha1_spec
    [100, 49, 58, 97, 100, 49, 58, 98, 105, 49, 101, 101, 101] 20 0 13
    (sha1Bytes [100, 49, 58, 97, 100, 49, 58, 98, 105, 49, 101, 101, 101])
    [([97], .dict (sha1Bytes [100, 49, 58, 98, 105, 49, 101, 101])
      [([98], .int 1)])]
    (by rfl)

/-- C8: `Decoder::decode` on the empty input panics on the out-of-bounds
`rest_data[0]` access — it does not return a `DecodeError` — and for every
non-empty input the initial byte inspection is in bounds. -/
theorem decode_empty_input (fuel : Nat) :
    decode [] (fuel + 1) 0 = .panic ∧
    (∀ e, decode [] (fuel + 1) 0 ≠ .err e) ∧
    (∀ data : List Nat, data ≠ [] → (headByte data 0).isSome) := by
  have h1 : decode [] (fuel + 1) 0 = .panic := by
    rw [decode]
    rfl
  refine ⟨h1, ?_, ?_⟩
  · intro e he
    rw [h1] at he
    cases he
  · intro data hd
    cases data with
    | nil => exact absurd rfl hd
    | cons b t => simp [headByte]

/-- Witness for C8: the empty input panics; a non-empty input has its first
byte in bounds. -/
theorem decode_empty_input_witness :
    decode [] 1 0 = .panic ∧ (headByte [105, 51, 101] 0).isSome :=
  ⟨(decode_empty_input 0).1,
   (decode_empty_input 0).2.2 [105, 51, 101] (by decide)⟩

/-! Tracker response decoding (C7) -/

/-- C7 counterexample: `de` is a well-formed bencoded dict without a `peers`
key — a malformed tracker response in the claim's sense — yet
`get_peer_list_from_response` panics on `.get("peers").unwrap()` instead of
returning an error. -/
theorem tracker_missing_peers_aborts :
    get_peer_list_from_response [100, 101] = .panic ∧
    ∀ e, get_peer_list_from_response [100, 101] ≠ .err e := by
  refine ⟨by rfl, ?_⟩
  intro e h
  rw [show get_peer_list_from_response [100, 101] = .panic from rfl] at h
  cases h

/-- C7 amended: only a response body the bencoding decoder rejects makes
`get_peer_list_from_response` return an error (the decoder's error); a
decodable dict whose `peers` key is missing or not a list, or any of whose
peer entries is not a dict with an `ip` byte string and a `port` int,
makes the function panic on an `unwrap()`; a well-shaped response yields
the `(ip, port)` pairs in list order. -/
theorem tracker_response_decode_spec :
    (∀ (data : List Nat) (e : DecodeError),
       decode_dict data (data.length + 1) 0 = .err e →
       get_peer_list_from_response data = .err e) ∧
    (∀ (data sha : List Nat) (values : List (List Nat × BencValue)) (pos : Nat),
       decode_dict data (data.length + 1) 0 = .ok (sha, values) pos →
       (dictGet values [112, 101, 101, 114, 115]).bind BencValue.as_list = none →
       get_peer_list_from_response data = .panic) ∧
    (∀ (data sha : List Nat) (values : List (List Nat × BencValue)) (pos : Nat)
       (peers : List BencValue),
       decode_dict data (data.length + 1) 0 = .ok (sha, values) pos →
       (dictGet values [112, 101, 101, 114, 115]).bind BencValue.as_list =
         some peers →
       collectPeers peers = none →
       get_peer_list_from_response data = .panic) ∧
    (∀ (data sha : List Nat) (values : List (List Nat × BencValue)) (pos : Nat)
       (peers : List BencValue) (ps : List (List Nat × Nat)),
       decode_dict data (data.length + 1) 0 = .ok (sha, values) pos →
       (dictGet values [112, 101, 101, 114, 115]).bind BencValue.as_list =
         some peers →
       collectPeers peers = some ps →
       get_peer_list_from_response data = .ok ps) := by
  refine ⟨?_, ?_, ?_, ?_⟩
  · intro data e h
    unfold get_peer_list_from_response
    rw [h]
  · intro data sha values pos h hp
    unfold get_peer_list_from_response
    rw [h]
    dsimp only
    rw [hp]
  · intro data sha values pos peers h hp hc
    unfold get_peer_list_from_response
    rw [h]
    dsimp only
    rw [hp]
    dsimp only
    rw [hc]
  · intro data sha values pos peers ps h hp hc
    unfold get_peer_list_from_response
    rw [h]
    dsimp only
    rw [hp]
    dsimp only
    rw [hc]

/-- Witness for C7: `i3e` (not a dict) yields the decoder's error; `de`
(missing `peers`) panics. -/
theorem tracker_response_decode_witness :
    get_peer_list_from_response [105, 51, 101] =
      .err .stringDelimiterNotFound ∧
    get_peer_list_from_response [100, 101] = .panic :=
  ⟨tracker_response_decode_spec.1 [105, 51, 101] .stringDelimiterNotFound
     (by rfl),
   tracker_response_decode_spec.2.1 [100, 101] (sha1Bytes [100, 101]) [] 2
     (by rfl) (by rfl)⟩

/-! Info deserialization (C10) -/

lemma chunksExactGo_spec (k : Nat) (hk : 0 < k) :
    ∀ (fuel : Nat) (l : List α), l.length ≤ fuel →
    (chunksExactGo k fuel l).length = l.length / k ∧
    (chunksExactGo k fuel l).flatten = l.take (k * (l.length / k)) ∧
    ∀ c ∈ chunksExactGo k fuel l, c.length = k := by
  intro fuel
  induction fuel with
  | zero =>
      intro l hl
      have : l = [] := by cases l <;> simp_all
      subst this
      simp [chunksExactGo]
  | succ fuel ih =>
      intro l hl
      by_cases hshort : l.length < k
      · rw [chunksExactGo, if_pos (Or.inr hshort)]
        rw [Nat.div_eq_of_lt hshort]
        simp
      · push_neg at hshort
        have hcond : ¬ (k = 0 ∨ l.length < k) := by omega
        rw [chunksExactGo, if_neg hcond]
        have hdl : (l.drop k).length = l.length - k := by simp
        obtain ⟨ihl, ihf, ihc⟩ := ih (l.drop k) (by rw [hdl]; omega)
        have hdiv : l.length / k = (l.length - k) / k + 1 :=
          Nat.div_eq_sub_div hk hshort
        refine ⟨?_, ?_, ?_⟩
        · simp [ihl, hdl, hdiv]
        · rw [List.flatten_cons, ihf, hdl, hdiv]
          rw [show k * ((l.length - k) / k + 1) = k + k * ((l.length - k) / k)
            from by ring]
          rw [List.take_add]
        · intro c hc
          rcases List.mem_cons.mp hc with h | h
          · subst h; simp [hshort]
          · exact ihc c h

/-- C10: `Info::deserialize` accepts a `pieces` byte string of any length
without error (the construction is total): it produces `floor(len / 20)`
hashes of 20 bytes each, the concatenation of which is the first
`20 * floor(len / 20)` bytes of the input — up to 19 trailing bytes are
silently discarded — and no relation between the number of hashes and
`ceil(length / piece_length)` is ever checked. -/
theorem info_pieces_no_validation (ii : InfoInternal) :
    (Info.deserialize ii).pieces.length = ii.pieces.length / 20 ∧
    (Info.deserialize ii).pieces.flatten =
      ii.pieces.take (20 * (ii.pieces.length / 20)) ∧
    ∀ c ∈ (Info.deserialize ii).pieces, c.length = 20 :=
  chunksExactGo_spec 20 (by omega) ii.pieces.length ii.pieces (Nat.le_refl _)

/-! File downloader (C1): request-sequence and emitter-state lemmas -/

lemma lt_divCeil_iff (a b c : Nat) (hb : 0 < b) :
    c < divCeil a b ↔ b * c < a := by
  rw [← Nat.not_le, ← Nat.not_le, divCeil_le_iff a b c hb]

lemma pieceReqs_length (fi : FileInfo) (bl p : Nat) :
    (pieceReqs fi bl p).length = divCeil (fi.pieceLength p) bl := by
  simp [pieceReqs]

lemma pieceReqs_drop (fi : FileInfo) (bl p k : Nat)
    (hk : k < divCeil (fi.pieceLength p) bl) :
    (pieceReqs fi bl p).drop k =
      (p, k * bl, min bl (fi.pieceLength p - k * bl)) ::
        (pieceReqs fi bl p).drop (k + 1) := by
  rw [List.drop_eq_getElem_cons (by rw [pieceReqs_length]; exact hk)]
  congr 1
  simp [pieceReqs]

lemma blocksBefore_succ (fi : FileInfo) (bl p : Nat) :
    blocksBefore fi bl (p + 1) =
      blocksBefore fi bl p + divCeil (fi.pieceLength p) bl := by
  unfold blocksBefore
  rw [List.range_succ, List.flatMap_append]
  simp [pieceReqs_length]

lemma blocksBefore_mono (fi : FileInfo) (bl : Nat) {p q : Nat} (h : p ≤ q) :
    blocksBefore fi bl p ≤ blocksBefore fi bl q := by
  induction q with
  | zero =>
      have : p = 0 := by omega
      subst this
      exact Nat.le_refl _
  | succ q ih =>
      rcases Nat.lt_or_ge p (q + 1) with hlt | hge
      · have := ih (by omega)
        rw [blocksBefore_succ]
        omega
      · have : p = q + 1 := by omega
        subst this
        exact Nat.le_refl _

lemma specRequests_length_eq (fi : FileInfo) (bl : Nat) :
    (specRequests fi bl).length = blocksBefore fi bl fi.piece_count := rfl

lemma specRequests_drop_bb (fi : FileInfo) (bl : Nat)
    (hpl : 0 < fi.piece_length) :
    ∀ p, p ≤ fi.piece_count →
    (specRequests fi bl).drop (blocksBefore fi bl p) =
      specRequestsFrom fi bl p := by
  intro p
  induction p with
  | zero =>
      intro _
      show (specRequests fi bl).drop 0 = _
      rw [List.drop_zero]
      unfold specRequests specRequestsFrom
      rw [Nat.sub_zero, List.range_eq_range']
  | succ p ih =>
      intro hp
      rw [blocksBefore_succ, ← List.drop_drop, ih (by omega),
        specRequestsFrom_unfold fi bl p hpl,
        List.drop_left' (pieceReqs_length fi bl p)]

lemma request_next_block_none {e e' : RequestEmitter}
    (h : e.request_next_block = (none, e')) : e' = e := by
  unfold RequestEmitter.request_next_block at h
  split at h
  · cases h; rfl
  · simp at h

lemma emitterAfter_succ_right (e : RequestEmitter) (n : Nat) :
    emitterAfter e (n + 1) = (emitterAfter e n).request_next_block.2 := by
  induction n generalizing e with
  | zero => rfl
  | succ n ih =>
      rw [show emitterAfter e (n + 1 + 1) =
        emitterAfter e.request_next_block.2 (n + 1) from rfl, ih]
      rfl

lemma emitRun_add (e : RequestEmitter) (n m : Nat) :
    emitRun e (n + m) = emitRun e n ++ emitRun (emitterAfter e n) m := by
  induction n generalizing e with
  | zero => rw [Nat.zero_add]; rfl
  | succ n ih =>
      rw [show n + 1 + m = (n + m) + 1 from by omega]
      cases hstep : e.request_next_block with
      | mk r? e' =>
          cases r? with
          | none =>
              simp only [emitRun, hstep]
              rw [ih]
              simp [emitterAfter, hstep]
          | some r =>
              simp only [emitRun, hstep]
              rw [ih]
              simp [emitterAfter, hstep]

lemma emitRun_after_take (fi : FileInfo) (bl : Nat) (hbl : 0 < bl)
    (hpl : 0 < fi.piece_length) (n m : Nat) :
    emitRun (emitterAfter (RequestEmitter.new bl fi) n) m =
      ((specRequests fi bl).drop n).take m := by
  have h1 := emitRun_new_take fi bl (n + m) hbl hpl
  rw [emitRun_add, emitRun_new_take fi bl n hbl hpl, List.take_add] at h1
  exact List.append_cancel_left h1

lemma emitter_step_at (fi : FileInfo) (bl : Nat) (hbl : 0 < bl)
    (hpl : 0 < fi.piece_length) (n : Nat)
    (hn : n < (specRequests fi bl).length) :
    (emitterAfter (RequestEmitter.new bl fi) n).request_next_block =
      (some ((specRequests fi bl).get ⟨n, hn⟩),
       emitterAfter (RequestEmitter.new bl fi) (n + 1)) := by
  have h1 := emitRun_after_take fi bl hbl hpl n 1
  rw [List.drop_eq_getElem_cons hn] at h1
  cases hstep : (emitterAfter (RequestEmitter.new bl fi) n).request_next_block with
  | mk r? e' =>
      cases r? with
      | none =>
          exfalso
          simp only [emitRun, hstep] at h1
          simp [emitRun] at h1
          omega
      | some r =>
          simp only [emitRun, hstep] at h1
          simp only [emitRun, List.take_succ_cons, List.take_zero] at h1
          have hr : r = (specRequests fi bl).get ⟨n, hn⟩ := by
            simpa using h1
          have he' : e' = emitterAfter (RequestEmitter.new bl fi) (n + 1) := by
            rw [emitterAfter_succ_right, hstep]
          rw [hr, he']

lemma emitter_step_none (fi : FileInfo) (bl : Nat) (hbl : 0 < bl)
    (hpl : 0 < fi.piece_length) (n : Nat)
    (hn : (specRequests fi bl).length ≤ n) :
    (emitterAfter (RequestEmitter.new bl fi) n).request_next_block =
      (none, emitterAfter (RequestEmitter.new bl fi) n) := by
  have h1 := emitRun_after_take fi bl hbl hpl n 1
  rw [List.drop_eq_nil_of_le hn, List.take_nil] at h1
  cases hstep : (emitterAfter (RequestEmitter.new bl fi) n).request_next_block with
  | mk r? e' =>
      cases r? with
      | some r => simp only [emitRun, hstep] at h1; cases h1
      | none => rw [request_next_block_none hstep]

lemma emitterAfter_stable (fi : FileInfo) (bl : Nat) (hbl : 0 < bl)
    (hpl : 0 < fi.piece_length) :
    ∀ m n, (specRequests fi bl).length ≤ n →
    emitterAfter (RequestEmitter.new bl fi) (n + m) =
      emitterAfter (RequestEmitter.new bl fi) n := by
  intro m
  induction m with
  | zero => intro n _; rfl
  | succ m ih =>
      intro n hn
      rw [show n + (m + 1) = (n + m) + 1 from rfl, emitterAfter_succ_right,
        ih n hn, emitter_step_none fi bl hbl hpl n hn]

lemma requestFirstBlocks_spec :
    ∀ (n : Nat) (e : RequestEmitter) (ch : DownloadChannelFromVector),
    requestFirstBlocks n e ch =
      (emitterAfter e n, ⟨ch.pieces, ch.requests ++ emitRun e n⟩) := by
  intro n
  induction n with
  | zero =>
      intro e ch
      show (e, ch) = _
      simp [emitterAfter, emitRun]
  | succ n ih =>
      intro e ch
      rw [requestFirstBlocks]
      cases hstep : e.request_next_block with
      | mk r? e' =>
          cases r? with
          | none =>
              simp only [emitterSend, hstep]
              rw [ih]
              simp [emitterAfter, emitRun, hstep]
          | some r =>
              simp only [emitterSend, hstep]
              rw [ih]
              simp [emitterAfter, emitRun, hstep, channelRequest,
                List.append_assoc]

lemma chunksOfGo_congr (k : Nat) (_hk : 0 < k) :
    ∀ (f1 f2 : Nat) (l : List α), l.length ≤ f1 → l.length ≤ f2 →
    chunksOfGo k f1 l = chunksOfGo k f2 l := by
  intro f1
  induction f1 with
  | zero =>
      intro f2 l h1 _
      have : l = [] := by cases l <;> simp_all
      subst this
      cases f2 <;> rfl
  | succ f1 ih =>
      intro f2 l h1 h2
      cases l with
      | nil => cases f2 <;> rfl
      | cons a t =>
          cases f2 with
          | zero => simp at h2
          | succ f2 =>
              show _ :: chunksOfGo k f1 ((a :: t).drop (max k 1)) =
                _ :: chunksOfGo k f2 ((a :: t).drop (max k 1))
              congr 1
              apply ih
              · rw [List.length_drop]; omega
              · rw [List.length_drop]; omega

lemma chunksOf_cons (k : Nat) (hk : 0 < k) (a : α) (t : List α) :
    chunksOf k (a :: t) =
      (a :: t).take k :: chunksOf k ((a :: t).drop k) := by
  show (a :: t).take k :: chunksOfGo k t.length ((a :: t).drop (max k 1)) = _
  have hmax : max k 1 = k := by omega
  rw [hmax]
  congr 1
  apply chunksOfGo_congr k hk
  · simp only [List.length_drop, List.length_cons]; omega
  · exact Nat.le_refl _

lemma chunksOf_getD (k : Nat) (hk : 0 < k) :
    ∀ (p : Nat) (l : List α) (d : List α),
    (chunksOf k l).getD p d =
      if p * k < l.length then (l.drop (p * k)).take k else d := by
  intro p
  induction p with
  | zero =>
      intro l d
      cases l with
      | nil => simp [chunksOf, chunksOfGo]
      | cons a t =>
          rw [chunksOf_cons k hk]
          simp
  | succ p ih =>
      intro l d
      cases l with
      | nil => simp [chunksOf, chunksOfGo]
      | cons a t =>
          rw [chunksOf_cons k hk]
          show (chunksOf k ((a :: t).drop k)).getD p d = _
          rw [ih, List.drop_drop]
          have h1 : k + p * k = (p + 1) * k := by ring
          have h2 : ((a :: t).drop k).length = (a :: t).length - k := by
            rw [List.length_drop]
          rw [h1]
          by_cases hin : (p + 1) * k < (a :: t).length
          · rw [if_pos (by omega), if_pos hin]
          · rw [if_neg (by omega), if_neg hin]

lemma pieceChunk_length (fileData : List Nat) (pl p : Nat) :
    (pieceChunk fileData pl p).length =
      FileInfo.pieceLength ⟨fileData.length, pl⟩ p := by
  unfold pieceChunk
  rw [pieceLength_eq]
  dsimp only
  simp only [List.length_take, List.length_drop]
  have h2 : (p + 1) * pl = p * pl + pl := by ring
  split <;> omega

lemma sha1Verify_self (c : List Nat) : sha1Verify (sha1Bytes c) c = true := by
  simp [sha1Verify]

lemma sha1Verify_ne {h c : List Nat} (hne : h ≠ sha1Bytes c) :
    sha1Verify h c = false := by
  simp [sha1Verify, hne]

lemma replicate_drop (m n : Nat) :
    (List.replicate n (0 : Nat)).drop m = List.replicate (n - m) 0 := by
  induction m generalizing n with
  | zero => rfl
  | succ m ih =>
      cases n with
      | zero => simp
      | succ n =>
          rw [List.replicate_succ, List.drop_succ_cons, ih,
            Nat.succ_sub_succ]

/-- Writing a finished piece into the partially-filled output buffer extends
the filled prefix by one piece. -/
lemma write_piece_buffer (fileData : List Nat) (pl p : Nat)
    (hp : p * pl < fileData.length) :
    writeSlice
      (fileData.take (p * pl) ++
        List.replicate (fileData.length - p * pl) 0)
      (p * pl) (pieceChunk fileData pl p) =
      fileData.take ((p + 1) * pl) ++
        List.replicate (fileData.length - (p + 1) * pl) 0 := by
  unfold writeSlice
  have hlenA : (fileData.take (p * pl)).length = p * pl := by simp; omega
  have hchunklen : (pieceChunk fileData pl p).length =
      min pl (fileData.length - p * pl) := by
    unfold pieceChunk
    rw [List.length_take, List.length_drop]
  rw [List.take_left' hlenA]
  have hdrop : (fileData.take (p * pl) ++
      List.replicate (fileData.length - p * pl) 0).drop
        (p * pl + (pieceChunk fileData pl p).length) =
      (List.replicate (fileData.length - p * pl) (0 : Nat)).drop
        (pieceChunk fileData pl p).length := by
    rw [← List.drop_drop]
    congr 1
    exact List.drop_left' hlenA
  rw [hdrop, replicate_drop]
  have hjoin : fileData.take (p * pl) ++ pieceChunk fileData pl p =
      fileData.take (p * pl + pl) := by
    unfold pieceChunk
    rw [List.take_add]
  rw [hjoin]
  have h2 : (p + 1) * pl = p * pl + pl := by ring
  congr 1
  · rw [h2]
  · congr 1
    omega

/-- The download-pump simulation.  After `blocksBefore p + k` blocks have
been consumed, the queue holds the next outstanding window of the request
sequence, the emitter sits at the window's end, the composer holds the first
`k * bl` bytes of piece `p`, and the output buffer holds all pieces before
`p`.  Pieces before `j` have matching hashes; the run either completes the
whole file (`j = piece_count`) or dies on piece `j`'s hash mismatch. -/
lemma downloadLoop_sim (fileData : List Nat) (pl bl W : Nat)
    (hashes : List (List Nat)) (fi : FileInfo)
    (hfi : fi = ⟨fileData.length, pl⟩)
    (R : List (Nat × Nat × Nat)) (hR : R = specRequests fi bl)
    (hpl : 0 < pl) (hbl : 0 < bl) (hW : 0 < W)
    (j : Nat) (hj : j ≤ fi.piece_count)
    (hgood : ∀ q, q < j →
      hashes.get? q = some (sha1Bytes (pieceChunk fileData pl q)))
    (outcome : DownloadResult)
    (hout : (j = fi.piece_count ∧ outcome = .ok fileData) ∨
            (j < fi.piece_count ∧ ∃ hsh, hashes.get? j = some hsh ∧
              hsh ≠ sha1Bytes (pieceChunk fileData pl j) ∧
              outcome = .err .pieceHashMismatch)) :
    ∀ fuel p k,
      ((p = j ∧ j = fi.piece_count ∧ k = 0) ∨
       (p < fi.piece_count ∧ p ≤ j ∧ k < divCeil (fi.pieceLength p) bl)) →
      blocksBefore fi bl j + divCeil (fi.pieceLength j) bl + 1 ≤
        fuel + (blocksBefore fi bl p + k) →
      downloadLoop fi hashes fuel
        ⟨chunksOf pl fileData,
         (R.drop (blocksBefore fi bl p + k)).take
           (min (W + (blocksBefore fi bl p + k)) R.length -
             (blocksBefore fi bl p + k))⟩
        (emitterAfter (RequestEmitter.new bl fi)
          (min (W + (blocksBefore fi bl p + k)) R.length))
        ⟨(if k = 0 then none else some p),
         (pieceChunk fileData pl p).take (k * bl), fi⟩
        (fileData.take (p * pl) ++
          List.replicate (fileData.length - p * pl) 0)
        p = outcome := by
  subst hfi
  subst hR
  set fi : FileInfo := ⟨fileData.length, pl⟩ with hfi
  set R := specRequests fi bl with hR
  have hfpl : fi.piece_length = pl := rfl
  have hffl : fi.file_length = fileData.length := rfl
  have hplf : 0 < fi.piece_length := hpl
  have hRlen : R.length = blocksBefore fi bl fi.piece_count :=
    specRequests_length_eq fi bl
  intro fuel
  induction fuel with
  | zero =>
      intro p k hval hfuel
      exfalso
      rcases hval with ⟨hpj, hjpc, hk0⟩ | ⟨hppc, hpj, hkB⟩
      · subst hpj; subst hk0
        omega
      · have hbb1 : blocksBefore fi bl (p + 1) =
            blocksBefore fi bl p + divCeil (fi.pieceLength p) bl :=
          blocksBefore_succ fi bl p
        have hmono : blocksBefore fi bl (p + 1) ≤ blocksBefore fi bl j ∨
            p = j := by
          rcases Nat.lt_or_ge p j with h | h
          · exact Or.inl (blocksBefore_mono fi bl h)
          · exact Or.inr (by omega)
        rcases hmono with h | h
        · omega
        · subst h; omega
  | succ fuel ih =>
      intro p k hval hfuel
      rcases hval with ⟨hpj, hjpc, hk0⟩ | ⟨hppc, hpj, hkB⟩
      · -- terminal state: everything downloaded
        subst hpj; subst hk0
        rw [downloadLoop, if_pos (by omega)]
        have hfl_le : fileData.length ≤ pl * fi.piece_count :=
          (divCeil_le_iff fileData.length pl fi.piece_count hpl).mp
            (Nat.le_refl _)
        have hppl : p * pl = pl * fi.piece_count := by
          rw [hjpc]; ring
        rcases hout with ⟨_, hok⟩ | ⟨hlt, _⟩
        · rw [hok]
          congr 1
          rw [List.take_of_length_le (by omega)]
          rw [show fileData.length - p * pl = 0 from by omega]
          simp
        · omega
      · -- one more block to consume
        have hLpos : 0 < fi.pieceLength p := pieceLength_pos fi p hplf hppc
        have hBpos : 0 < divCeil (fi.pieceLength p) bl :=
          divCeil_pos _ _ hLpos hbl
        have hbb1 : blocksBefore fi bl (p + 1) =
            blocksBefore fi bl p + divCeil (fi.pieceLength p) bl :=
          blocksBefore_succ fi bl p
        have hiT : blocksBefore fi bl p + k < R.length := by
          have hmono := blocksBefore_mono fi bl (show p + 1 ≤ fi.piece_count from hppc)
          omega
        have hkL : bl * k < fi.pieceLength p :=
          (lt_divCeil_iff _ _ _ hbl).mp hkB
        have hk1L : bl * (k + 1) = bl * k + bl := by ring
        -- the piece bytes behind the channel
        have hpiece : (chunksOf pl fileData).getD p [] =
            pieceChunk fileData pl p := by
          rw [chunksOf_getD pl hpl p fileData []]
          rw [if_pos (by
            have h1 : pl * p < fileData.length :=
              (lt_divCeil_iff fileData.length pl p hpl).mp hppc
            have h2 : pl * p = p * pl := by ring
            omega)]
          rfl
        have hchunkL : (pieceChunk fileData pl p).length = fi.pieceLength p :=
          pieceChunk_length fileData pl p
        -- head of the outstanding queue
        have hdropPR : ∀ m, m ≤ divCeil (fi.pieceLength p) bl →
            R.drop (blocksBefore fi bl p + m) =
              (pieceReqs fi bl p).drop m ++ specRequestsFrom fi bl (p + 1) := by
          intro m hm
          rw [← List.drop_drop,
            specRequests_drop_bb fi bl hplf p (Nat.le_of_lt hppc),
            specRequestsFrom_unfold fi bl p hplf,
            List.drop_append_of_le_length (by rw [pieceReqs_length]; omega)]
        have hhead : R.drop (blocksBefore fi bl p + k) =
            (p, k * bl, min bl (fi.pieceLength p - k * bl)) ::
              R.drop (blocksBefore fi bl p + k + 1) := by
          rw [hdropPR k (Nat.le_of_lt hkB),
            show blocksBefore fi bl p + k + 1 =
              blocksBefore fi bl p + (k + 1) from rfl,
            hdropPR (k + 1) hkB,
            pieceReqs_drop fi bl p k hkB]
          rfl
        have hqlen : min (W + (blocksBefore fi bl p + k)) R.length -
            (blocksBefore fi bl p + k) =
            (min (W + (blocksBefore fi bl p + k)) R.length -
              (blocksBefore fi bl p + k) - 1) + 1 := by omega
        -- unfold one loop iteration: receive the head request's block
        rw [downloadLoop, if_neg (by omega)]
        rw [hhead, hqlen, List.take_succ_cons]
        rw [show channelReceive
            ⟨chunksOf pl fileData,
             (p, k * bl, min bl (fi.pieceLength p - k * bl)) ::
               (R.drop (blocksBefore fi bl p + k + 1)).take
                 (min (W + (blocksBefore fi bl p + k)) R.length -
                   (blocksBefore fi bl p + k) - 1)⟩ =
          .ok (⟨p, k * bl,
              (((chunksOf pl fileData).getD p []).drop (k * bl)).take
                (min bl (fi.pieceLength p - k * bl))⟩,
            ⟨chunksOf pl fileData,
             (R.drop (blocksBefore fi bl p + k + 1)).take
               (min (W + (blocksBefore fi bl p + k)) R.length -
                 (blocksBefore fi bl p + k) - 1)⟩) from rfl]
        rw [hpiece]
        dsimp only
        -- the emitter's refill and the window at the next index
        have hES : emitterSend
            (emitterAfter (RequestEmitter.new bl fi)
              (min (W + (blocksBefore fi bl p + k)) R.length))
            ⟨chunksOf pl fileData,
             (R.drop (blocksBefore fi bl p + k + 1)).take
               (min (W + (blocksBefore fi bl p + k)) R.length -
                 (blocksBefore fi bl p + k) - 1)⟩ =
            (emitterAfter (RequestEmitter.new bl fi)
              (min (W + (blocksBefore fi bl p + k + 1)) R.length),
             ⟨chunksOf pl fileData,
              (R.drop (blocksBefore fi bl p + k + 1)).take
                (min (W + (blocksBefore fi bl p + k + 1)) R.length -
                  (blocksBefore fi bl p + k + 1))⟩) := by
          rcases Nat.lt_or_ge
            (min (W + (blocksBefore fi bl p + k)) R.length) R.length
            with heCT | heCT
          · have hstep : (emitterAfter (RequestEmitter.new bl fi)
                (min (W + (blocksBefore fi bl p + k))
                  R.length)).request_next_block =
                (some (R.get ⟨min (W + (blocksBefore fi bl p + k)) R.length,
                    heCT⟩),
                 emitterAfter (RequestEmitter.new bl fi)
                   (min (W + (blocksBefore fi bl p + k)) R.length + 1)) :=
              emitter_step_at fi bl hbl hplf _ heCT
            have hq : (R.drop (blocksBefore fi bl p + k + 1)).take
                  (min (W + (blocksBefore fi bl p + k)) R.length -
                    (blocksBefore fi bl p + k) - 1) ++
                [R.get ⟨min (W + (blocksBefore fi bl p + k)) R.length,
                    heCT⟩] =
                (R.drop (blocksBefore fi bl p + k + 1)).take
                  (min (W + (blocksBefore fi bl p + k + 1)) R.length -
                    (blocksBefore fi bl p + k + 1)) := by
              rw [show min (W + (blocksBefore fi bl p + k + 1)) R.length -
                    (blocksBefore fi bl p + k + 1) =
                  (min (W + (blocksBefore fi bl p + k)) R.length -
                    (blocksBefore fi bl p + k) - 1) + 1 from by omega]
              rw [List.take_succ]
              congr 1
              rw [List.getElem?_drop]
              rw [show blocksBefore fi bl p + k + 1 +
                  (min (W + (blocksBefore fi bl p + k)) R.length -
                    (blocksBefore fi bl p + k) - 1) =
                  min (W + (blocksBefore fi bl p + k)) R.length from by omega]
              rw [List.getElem?_eq_getElem heCT]
              rfl
            unfold emitterSend
            rw [hstep]
            dsimp only [channelRequest]
            rw [hq]
            rw [show min (W + (blocksBefore fi bl p + k)) R.length + 1 =
              min (W + (blocksBefore fi bl p + k + 1)) R.length from by omega]
          · have hstep : (emitterAfter (RequestEmitter.new bl fi)
                (min (W + (blocksBefore fi bl p + k))
                  R.length)).request_next_block =
                (none, emitterAfter (RequestEmitter.new bl fi)
                  (min (W + (blocksBefore fi bl p + k)) R.length)) :=
              emitter_step_none fi bl hbl hplf _ heCT
            unfold emitterSend
            rw [hstep]
            dsimp only
            rw [show min (W + (blocksBefore fi bl p + k)) R.length -
                  (blocksBefore fi bl p + k) - 1 =
                min (W + (blocksBefore fi bl p + k + 1)) R.length -
                  (blocksBefore fi bl p + k + 1) from by omega]
            rw [show min (W + (blocksBefore fi bl p + k)) R.length =
              min (W + (blocksBefore fi bl p + k + 1)) R.length from by omega]
        -- the composer consumes the received block
        have hcomm : k * bl = bl * k := by ring
        have hexp : (k + 1) * bl = k * bl + bl := by ring
        have hexp2 : bl * (k + 1) = k * bl + bl := by ring
        have hbufl : ((pieceChunk fileData pl p).take (k * bl)).length =
            k * bl := by
          rw [List.length_take, hchunkL]
          omega
        have hpi : (if k = 0 then (none : Option Nat) else some p) = none ∨
            (if k = 0 then (none : Option Nat) else some p) = some p := by
          rcases Nat.eq_zero_or_pos k with h | h
          · exact Or.inl (by rw [if_pos h])
          · exact Or.inr (by rw [if_neg (by omega)])
        have happ := append_block_step fi
          (if k = 0 then none else some p)
          ((pieceChunk fileData pl p).take (k * bl)) p
          (((pieceChunk fileData pl p).drop (k * bl)).take
            (min bl (fi.pieceLength p - k * bl))) hpi
        rw [hbufl, ← List.take_add] at happ
        rcases Nat.lt_or_ge (k + 1) (divCeil (fi.pieceLength p) bl)
          with hk1 | hk1
        · -- the piece is not finished yet: recurse with one more block
          have hblL : bl * (k + 1) < fi.pieceLength p :=
            (lt_divCeil_iff _ _ _ hbl).mp hk1
          have hXeq : k * bl + min bl (fi.pieceLength p - k * bl) =
              (k + 1) * bl := by omega
          rw [hXeq] at happ
          rw [if_neg (show ¬ (fi.pieceLength p ≤
              ((pieceChunk fileData pl p).take ((k + 1) * bl)).length) from by
            rw [List.length_take, hchunkL]; omega)] at happ
          rw [happ]
          dsimp only
          rw [hES]
          dsimp only
          exact ih p (k + 1) (Or.inr ⟨hppc, hpj, hk1⟩) (by omega)
        · -- the block completes piece p
          have heq : k + 1 = divCeil (fi.pieceLength p) bl := by omega
          have hL1 : fi.pieceLength p ≤ bl * (k + 1) :=
            (divCeil_le_iff _ _ _ hbl).mp hk1
          have hXeq : k * bl + min bl (fi.pieceLength p - k * bl) =
              fi.pieceLength p := by omega
          rw [hXeq, List.take_of_length_le (Nat.le_of_eq hchunkL)] at happ
          rw [if_pos (Nat.le_of_eq hchunkL.symm)] at happ
          rw [happ]
          dsimp only
          rcases Nat.lt_or_ge p j with hplt | hpge
          · -- the hash matches: write the piece out and advance
            rw [hgood p hplt]
            dsimp only
            rw [if_pos (sha1Verify_self (pieceChunk fileData pl p))]
            rw [hES]
            dsimp only
            rw [show (fi.piece_bounds p).1 = p * pl from rfl]
            have hpplt : p * pl < fileData.length := by
              have h1 : pl * p < fileData.length :=
                (lt_divCeil_iff fileData.length pl p hpl).mp hppc
              have h2 : pl * p = p * pl := by ring
              omega
            rw [write_piece_buffer fileData pl p hpplt]
            have hval2 : ((p + 1 = j ∧ j = fi.piece_count ∧ 0 = 0) ∨
                (p + 1 < fi.piece_count ∧ p + 1 ≤ j ∧
                  0 < divCeil (fi.pieceLength (p + 1)) bl)) := by
              rcases Nat.lt_or_ge (p + 1) fi.piece_count with h2 | h2
              · exact Or.inr ⟨h2, by omega,
                  divCeil_pos _ _ (pieceLength_pos fi (p + 1) hplf h2) hbl⟩
              · exact Or.inl ⟨by omega, by omega, rfl⟩
            have hfuel2 : blocksBefore fi bl j +
                divCeil (fi.pieceLength j) bl + 1 ≤
                fuel + (blocksBefore fi bl (p + 1) + 0) := by
              rw [hbb1]
              omega
            have hih := ih (p + 1) 0 hval2 hfuel2
            rw [show blocksBefore fi bl (p + 1) =
                blocksBefore fi bl p + k + 1 from by rw [hbb1]; omega] at hih
            rw [Nat.zero_mul, List.take_zero] at hih
            exact hih
          · -- this is piece j: its stored hash differs, the run aborts
            have hpe : p = j := by omega
            rcases hout with ⟨hjpc2, _⟩ | ⟨hjlt, hsh, hget, hne, hoeq⟩
            · omega
            · rw [hES]
              dsimp only
              rw [hpe, hget]
              dsimp only
              rw [if_neg (by simp [sha1Verify_ne hne])]
              exact hoeq.symm

lemma chunksOf_getElem? (k : Nat) (hk : 0 < k) (q : Nat) (l : List α)
    (h : q * k < l.length) :
    (chunksOf k l)[q]? = some ((l.drop (q * k)).take k) := by
  have hgd := chunksOf_getD k hk q l []
  rw [if_pos h, List.getD_eq_getElem?_getD] at hgd
  cases hq : (chunksOf k l)[q]? with
  | none =>
      rw [hq, Option.getD_none] at hgd
      have hlen := congrArg List.length hgd
      rw [List.length_nil, List.length_take, List.length_drop] at hlen
      omega
  | some c =>
      rw [hq, Option.getD_some] at hgd
      rw [hgd]

/-- C1: against a channel that answers each emitted request with exactly the
requested `(piece_index, offset, data)` block, in request order,
`FileDownloader::download` of a file partitioned into `piece_length`-sized
pieces (last piece possibly shorter) returns `Ok(buffer)` with `buffer` the
original file bytes whenever every stored hash is the SHA-1 of its piece;
if instead the first diverging entry of `piece_hashes` holds a wrong hash,
download returns the piece-hash-mismatch error and no buffer. -/
theorem file_downloader_spec (fileData : List Nat) (pl bl W fuel : Nat)
    (hashes : List (List Nat)) (hpl : 0 < pl) (hbl : 0 < bl) (hW : 0 < W)
    (hfuel : blocksBefore ⟨fileData.length, pl⟩ bl
        (FileInfo.piece_count ⟨fileData.length, pl⟩) + 1 ≤ fuel) :
    (hashes = (chunksOf pl fileData).map sha1Bytes →
      download fileData pl hashes bl W fuel = .ok fileData) ∧
    (∀ j, j < FileInfo.piece_count ⟨fileData.length, pl⟩ →
      (∀ q, q < j →
        hashes.get? q = some (sha1Bytes (pieceChunk fileData pl q))) →
      ∀ hsh, hashes.get? j = some hsh →
        hsh ≠ sha1Bytes (pieceChunk fileData pl j) →
        download fileData pl hashes bl W fuel =
          .err .pieceHashMismatch) := by
  have hbb0 : blocksBefore (⟨fileData.length, pl⟩ : FileInfo) bl 0 = 0 := rfl
  have hmain : ∀ (j : Nat) (outcome : DownloadResult),
      j ≤ FileInfo.piece_count ⟨fileData.length, pl⟩ →
      (∀ q, q < j →
        hashes.get? q = some (sha1Bytes (pieceChunk fileData pl q))) →
      ((j = FileInfo.piece_count ⟨fileData.length, pl⟩ ∧
          outcome = .ok fileData) ∨
       (j < FileInfo.piece_count ⟨fileData.length, pl⟩ ∧ ∃ hsh,
          hashes.get? j = some hsh ∧
          hsh ≠ sha1Bytes (pieceChunk fileData pl j) ∧
          outcome = .err .pieceHashMismatch)) →
      blocksBefore ⟨fileData.length, pl⟩ bl j +
        divCeil (FileInfo.pieceLength ⟨fileData.length, pl⟩ j) bl + 1 ≤
        fuel →
      download fileData pl hashes bl W fuel = outcome := by
    intro j outcome hj hgood hout hfl
    have hval : ((0 = j ∧ j = FileInfo.piece_count ⟨fileData.length, pl⟩ ∧
        0 = 0) ∨
        (0 < FileInfo.piece_count ⟨fileData.length, pl⟩ ∧ 0 ≤ j ∧
          0 < divCeil (FileInfo.pieceLength ⟨fileData.length, pl⟩ 0) bl)) := by
      rcases Nat.eq_zero_or_pos
        (FileInfo.piece_count ⟨fileData.length, pl⟩) with h | h
      · exact Or.inl ⟨by omega, by omega, rfl⟩
      · exact Or.inr ⟨h, Nat.zero_le _,
          divCeil_pos _ _ (pieceLength_pos _ 0 hpl h) hbl⟩
    have hsim := downloadLoop_sim fileData pl bl W hashes
      ⟨fileData.length, pl⟩ rfl (specRequests ⟨fileData.length, pl⟩ bl) rfl
      hpl hbl hW j hj hgood outcome hout fuel 0 0 hval
      (by rw [hbb0]; omega)
    simp only [hbb0, Nat.add_zero, Nat.sub_zero, Nat.zero_mul,
      List.take_zero, List.drop_zero, List.nil_append] at hsim
    have htk : (specRequests (⟨fileData.length, pl⟩ : FileInfo) bl).take
        (min W (specRequests (⟨fileData.length, pl⟩ : FileInfo) bl).length) =
        (specRequests (⟨fileData.length, pl⟩ : FileInfo) bl).take W := by
      rcases Nat.le_total W
        (specRequests (⟨fileData.length, pl⟩ : FileInfo) bl).length with h | h
      · rw [Nat.min_eq_left h]
      · rw [Nat.min_eq_right h, List.take_length, List.take_of_length_le h]
    have hemit : emitterAfter (RequestEmitter.new bl ⟨fileData.length, pl⟩)
        (min W (specRequests (⟨fileData.length, pl⟩ : FileInfo) bl).length) =
        emitterAfter (RequestEmitter.new bl ⟨fileData.length, pl⟩) W := by
      rcases Nat.le_total W
        (specRequests (⟨fileData.length, pl⟩ : FileInfo) bl).length with h | h
      · rw [Nat.min_eq_left h]
      · rw [Nat.min_eq_right h]
        have hst := emitterAfter_stable ⟨fileData.length, pl⟩ bl hbl hpl
          (W - (specRequests (⟨fileData.length, pl⟩ : FileInfo) bl).length)
          (specRequests (⟨fileData.length, pl⟩ : FileInfo) bl).length
          (Nat.le_refl _)
        rw [show (specRequests (⟨fileData.length, pl⟩ : FileInfo) bl).length +
            (W - (specRequests (⟨fileData.length, pl⟩ : FileInfo) bl).length) =
            W from by omega] at hst
        exact hst.symm
    rw [htk, hemit] at hsim
    unfold download
    dsimp only
    rw [requestFirstBlocks_spec]
    dsimp only
    rw [List.nil_append,
      emitRun_new_take ⟨fileData.length, pl⟩ bl W hbl hpl]
    exact hsim
  constructor
  · intro hmap
    have hgood1 : ∀ q, q < FileInfo.piece_count ⟨fileData.length, pl⟩ →
        hashes.get? q = some (sha1Bytes (pieceChunk fileData pl q)) := by
      intro q hq
      have hqb : q * pl < fileData.length := by
        have h1 : pl * q < fileData.length :=
          (lt_divCeil_iff fileData.length pl q hpl).mp hq
        have h2 : pl * q = q * pl := by ring
        omega
      rw [hmap, List.get?_eq_getElem?, List.getElem?_map,
        chunksOf_getElem? pl hpl q fileData hqb]
      rfl
    have hflj : blocksBefore ⟨fileData.length, pl⟩ bl
        (FileInfo.piece_count ⟨fileData.length, pl⟩) +
        divCeil (FileInfo.pieceLength ⟨fileData.length, pl⟩
          (FileInfo.piece_count ⟨fileData.length, pl⟩)) bl + 1 ≤ fuel := by
      rw [pieceLength_of_ge ⟨fileData.length, pl⟩
        (FileInfo.piece_count ⟨fileData.length, pl⟩) hpl (Nat.le_refl _),
        divCeil_zero]
      omega
    exact hmain _ _ (Nat.le_refl _) hgood1 (Or.inl ⟨rfl, rfl⟩) hflj
  · intro j hjlt hgood2 hsh hget hne
    have hflj : blocksBefore ⟨fileData.length, pl⟩ bl j +
        divCeil (FileInfo.pieceLength ⟨fileData.length, pl⟩ j) bl + 1 ≤
        fuel := by
      have hmono := blocksBefore_mono ⟨fileData.length, pl⟩ bl
        (show j + 1 ≤ FileInfo.piece_count ⟨fileData.length, pl⟩ from hjlt)
      have hsucc := blocksBefore_succ ⟨fileData.length, pl⟩ bl j
      omega
    exact hmain j _ (Nat.le_of_lt hjlt) hgood2
      (Or.inr ⟨hjlt, hsh, hget, hne, rfl⟩) hflj

/-- Witness for C1: a 20-byte file with `piece_length = 10`,
`block_length = 3`, the test's queue length `150`, and per-piece SHA-1
hashes is reconstructed exactly. -/
theorem file_downloader_spec_witness :
    0 < 10 ∧
    download [1, 2, 3, 4, 5, 6, 7, 8, 9, 10,
        11, 12, 13, 14, 15, 16, 17, 18, 19, 20] 10
      ((chunksOf 10 [1, 2, 3, 4, 5, 6, 7, 8, 9, 10,
        11, 12, 13, 14, 15, 16, 17, 18, 19, 20]).map sha1Bytes) 3 150 20 =
      .ok [1, 2, 3, 4, 5, 6, 7, 8, 9, 10,
        11, 12, 13, 14, 15, 16, 17, 18, 19, 20] :=
  ⟨by decide,
   (file_downloader_spec [1, 2, 3, 4, 5, 6, 7, 8, 9, 10,
        11, 12, 13, 14, 15, 16, 17, 18, 19, 20] 10 3 150 20
      ((chunksOf 10 [1, 2, 3, 4, 5, 6, 7, 8, 9, 10,
        11, 12, 13, 14, 15, 16, 17, 18, 19, 20]).map sha1Bytes)
      (by decide) (by decide) (by decide) (by decide)).1 rfl⟩

/-- Witness for C9: a Piece frame with a 3-byte payload panics; one with an
8-byte payload decodes to a `Piece`. -/
theorem receive_piece_short_payload_witness :
    PeerMessage.receive (msgFrame 7 [1, 2, 3]) = .panic ∧
    PeerMessage.receive (msgFrame 7 [0, 0, 0, 9, 0, 0, 0, 4]) =
      .ok (.piece 9 4 []) [] :=
  ⟨(receive_piece_short_payload [1, 2, 3] (by decide)).1 (by decide),
   by
    have := (receive_piece_short_payload [0, 0, 0, 9, 0, 0, 0, 4]
      (by decide)).2 (by decide)
    simpa using this⟩

end BtClient
